import Mathlib

/-!
The eudore connection drivers, the test response writer and some of the
functions around them.

A shallow embedding of

* `protocol/http/http.go` (`HttpHandler.EudoreConn`, `isNotCommonNetReadError`),
* `component/server/eudore/http.go` (`HTTPHandler`, `isNotCommonNetReadError`),
* `component/httptest/response.go` (`ResponseWriterTest`),
* `controller.go` (`splitName`, `getRouteByName`, `getFirstUp`, `getRouteMethod`),
* `component/ram/acl.go` (`ACL`),
* `middleware/ram/pbac.go` (`Pbac.BindPolicy`, `Pbac.BindStrings`),
* `component/session/session.go` (`StoreMap`),
* `server.go` (`TimeDuration.UnmarshalJSON`),
* `logger.go` (`LoggerInit`).

Go maps are association lists (`GoMap`), Go strings are lists of runes or of
bytes, and functions of the Go standard library are parameters or are
modelled after their documentation.

The connection drivers call into code that they do not define (the request
parser, the response writer, the handler, the transport).  Each such call is
recorded as an `Event`; what the driver reads back from the call (the error of
`Request.Reset`, the flags `ishjack` and `isnotkeep`) is supplied by an `Env`.
-/

namespace Eudore

/-! ## Go error values -/

/-- The error values the drivers can receive from `Request.Reset`.
`opError` is a `*net.OpError` (it implements `net.Error`), `netError` is any
other implementation of `net.Error`, `other` is any other error value. -/
inductive GoError
  | nil
  | EOF
  | ErrLineInvalid
  | opError (op : String) (timeout : Bool)
  | netError (msg : String) (timeout : Bool)
  | other (msg : String)
deriving DecidableEq, Repr

/-- The type assertion `err.(net.Error)`: when it succeeds, the result of
`Timeout()`. -/
def GoError.asNetError : GoError → Option Bool
  | .opError _ t => some t
  | .netError _ t => some t
  | _ => none

/-- The type assertion `err.(*net.OpError)`: when it succeeds, the field `Op`. -/
def GoError.asOpError : GoError → Option String
  | .opError op _ => some op
  | _ => none

/-! ## Events, contexts and the environment of a driver -/

/-- A `context.Context`: the parent handed to the driver, or a child made by
`context.WithCancel`; `serial` tells the children of one parent apart. -/
inductive Context
  | base (id : Nat)
  | withCancel (parent : Context) (serial : Nat)
deriving DecidableEq, Repr

/-- The calls a driver makes, in the order it makes them.  `resp` names the
pooled `*Response` object, `call` counts the calls of `Request.Reset` on the
connection from 0.  `cancel` is an invocation of a cancel function. -/
inductive Event
  | poolGet (resp : Nat)
  | setReadDeadline (t : Int)
  | requestReset (resp : Nat) (call : Nat)
  | print (err : GoError)
  | responseReset (resp : Nat)
  | withCancel (parent : Context) (child : Context)
  | setWriteDeadline (t : Int)
  | handler (ctx : Context) (resp : Nat) (call : Nat)
  | finalFlush (resp : Nat)
  | cancel (ctx : Context)
  | close
  | poolPut (resp : Nat)
deriving DecidableEq, Repr

/-- What the driver observes from the code it calls: the object `rwPool.Get()`
returns, the readings of `time.Now()` in iteration `i`, the error returned by
the `i`-th `Request.Reset`, and the flags `resp.ishjack` (read after the
handler returns) and `resp.request.isnotkeep` (read after `finalFlush`). -/
structure Env where
  pooled : Nat
  nowRead : Nat → Int
  nowWrite : Nat → Int
  resetErr : Nat → GoError
  ishjack : Nat → Bool
  isnotkeep : Nat → Bool

/-- The part of the connection state the driver itself writes: the calls made
so far and the field `resp.cancel`. -/
structure Conn where
  trace : List Event
  cancel : Option Context
deriving DecidableEq, Repr

/-- Record one call. -/
def Conn.emit (s : Conn) (e : Event) : Conn :=
  { s with trace := s.trace ++ [e] }

/-- How the `for` loop was left: `running` when the fuel ran out inside the
loop, `brk` by `break`, `ret` by the `return` after a hijack. -/
inductive LoopExit
  | running
  | brk
  | ret
deriving DecidableEq, Repr

/-- How the driver ended: still inside the loop, returned after a hijack, or
returned after closing the connection. -/
inductive Exit
  | running
  | hijacked
  | closed
deriving DecidableEq, Repr

/-- Iterations `0 .. n-1` all parse a request, do not hijack and keep the
connection alive. -/
def Env.loopsBack (env : Env) (n : Nat) : Prop :=
  ∀ j, j < n → env.resetErr j = GoError.nil ∧ env.ishjack j = false ∧ env.isnotkeep j = false

instance (env : Env) (n : Nat) : Decidable (env.loopsBack n) := by
  unfold Env.loopsBack; infer_instance

/-- The field `resp.cancel` after the `k` iterations `i, .., i+k-1` have each
stored their cancel function in it, starting from the value `c`. -/
def lastCancel (pctx : Context) (c : Option Context) (i k : Nat) : Option Context :=
  if k = 0 then c else some (Context.withCancel pctx (i + k - 1))

/-- The number of the request an event hands to the handler, if it is a
handler invocation. -/
def Event.handlerCall : Event → Option Nat
  | Event.handler _ _ call => some call
  | _ => none

/-- Whether an event is a call of the diagnostic sink `Print`. -/
def Event.isPrint : Event → Bool
  | Event.print _ => true
  | _ => false

/-- The pooled object an event is about, if it is about one. -/
def Event.resp : Event → Option Nat
  | Event.poolGet r => some r
  | Event.requestReset r _ => some r
  | Event.responseReset r => some r
  | Event.handler _ r _ => some r
  | Event.finalFlush r => some r
  | Event.poolPut r => some r
  | _ => none

/-- The child context of the last `context.WithCancel` call in a trace. -/
def lastDerived (t : List Event) : Option Context :=
  t.foldl (fun acc e =>
    match e with
    | Event.withCancel _ child => some child
    | _ => acc) none

/-- Whether an event is one of the three calls that serve a request:
`Request.Reset`, the handler, `finalFlush`. -/
def Event.isServe : Event → Bool
  | Event.requestReset _ _ => true
  | Event.handler _ _ _ => true
  | Event.finalFlush _ => true
  | _ => false

/-- What holds of every call a driver makes on a connection with environment
`env` and parent context `pctx`: it is not an invocation of a cancel
function, a context it derives is derived from `pctx`, and a handler
invocation gets the context derived in its own iteration, for a request whose
`Request.Reset` returned no error. -/
def Event.sound (env : Env) (pctx : Context) : Event → Bool
  | Event.cancel _ => false
  | Event.withCancel parent _ => parent == pctx
  | Event.handler ctx _ call => ctx == Context.withCancel pctx call && env.resetErr call == GoError.nil
  | _ => true

/-- A connection described by a script: the errors of the successive
`Request.Reset` calls (`io.EOF` once the script is over) and the flags read in
the successive iterations; the clock reads 1000 i and 1000 i + 500. -/
def Env.ofScript (pooled : Nat) (errs : List GoError) (hijacks notkeeps : List Bool) : Env :=
  { pooled := pooled
    nowRead := fun i => 1000 * i
    nowWrite := fun i => 1000 * i + 500
    resetErr := fun i => errs.getD i GoError.EOF
    ishjack := fun i => hijacks.getD i false
    isnotkeep := fun i => notkeeps.getD i false }

/-! ## `protocol/http/http.go` -/

namespace ProtocolHttp

/-- The struct `HttpHandler`: the timeouts are `time.Duration` values in nanoseconds. -/
structure HttpHandler where
  ReadTimeout : Int
  WriteTimeout : Int
  IdleTimeout : Int

/-- The function `isNotCommonNetReadError` of `protocol/http/http.go`. -/
def isNotCommonNetReadError (err : GoError) : Bool :=
  if err = GoError.EOF then false
  else if (match err.asNetError with
      | some timeout => timeout
      | none => false) then false
  else if (match err.asOpError with
      | some op => op == "read"
      | none => false) then false
  else true

/-- The body of the `for` loop of `EudoreConn`; `i` is the number of the
iteration, one unit of fuel is one iteration. -/
def EudoreConn.loop (h : HttpHandler) (env : Env) (pctx : Context) :
    Nat → Nat → Conn → Conn × LoopExit
  | 0, _, s => (s, LoopExit.running)
  | fuel + 1, i, s =>
    let s := s.emit (Event.setReadDeadline (env.nowRead i + h.ReadTimeout))
    let s := s.emit (Event.requestReset env.pooled i)
    let err := env.resetErr i
    if err ≠ GoError.nil then
      let s := if isNotCommonNetReadError err then s.emit (Event.print err) else s
      (s, LoopExit.brk)
    else
      let s := s.emit (Event.responseReset env.pooled)
      let ctx := Context.withCancel pctx i
      let s := s.emit (Event.withCancel pctx ctx)
      let s := { s with cancel := some ctx }
      let s := s.emit (Event.setWriteDeadline (env.nowWrite i + h.WriteTimeout))
      let s := s.emit (Event.handler ctx env.pooled i)
      if env.ishjack i then (s, LoopExit.ret)
      else
        let s := s.emit (Event.finalFlush env.pooled)
        if env.isnotkeep i then (s, LoopExit.brk)
        else EudoreConn.loop h env pctx fuel (i + 1) s

/-- The method `HttpHandler.EudoreConn`: the final connection state and the way
the driver ended, for a run of at most `fuel` iterations. -/
def EudoreConn (h : HttpHandler) (env : Env) (pctx : Context) (fuel : Nat) : Conn × Exit :=
  let s : Conn := { trace := [Event.poolGet env.pooled], cancel := none }
  match EudoreConn.loop h env pctx fuel 0 s with
  | (s, LoopExit.running) => (s, Exit.running)
  | (s, LoopExit.ret) => (s, Exit.hijacked)
  | (s, LoopExit.brk) =>
    let s := s.emit Event.close
    let s := s.emit (Event.poolPut env.pooled)
    (s, Exit.closed)

/-- The calls of iteration `i` of `EudoreConn` from the read deadline to the
handler, for a request that parsed. -/
def EudoreConn.dispatchEvents (h : HttpHandler) (env : Env) (pctx : Context) (i : Nat) :
    List Event :=
  [Event.setReadDeadline (env.nowRead i + h.ReadTimeout),
   Event.requestReset env.pooled i,
   Event.responseReset env.pooled,
   Event.withCancel pctx (Context.withCancel pctx i),
   Event.setWriteDeadline (env.nowWrite i + h.WriteTimeout),
   Event.handler (Context.withCancel pctx i) env.pooled i]

/-- The calls of iteration `i` of `EudoreConn` when the handler does not hijack. -/
def EudoreConn.servedEvents (h : HttpHandler) (env : Env) (pctx : Context) (i : Nat) :
    List Event :=
  EudoreConn.dispatchEvents h env pctx i ++ [Event.finalFlush env.pooled]

/-- The calls of the `k` iterations `i, i+1, .., i+k-1` of `EudoreConn` when
each of them serves its request without a hijack. -/
def EudoreConn.keptAlive (h : HttpHandler) (env : Env) (pctx : Context) : Nat → Nat → List Event
  | _, 0 => []
  | i, k + 1 => EudoreConn.servedEvents h env pctx i ++ EudoreConn.keptAlive h env pctx (i + 1) k

end ProtocolHttp

/-! ## `component/server/eudore/http.go` -/

namespace ServerEudore

/-- The function `isNotCommonNetReadError` of `component/server/eudore/http.go`. -/
def isNotCommonNetReadError (err : GoError) : Bool :=
  if err = GoError.EOF then false
  else if (match err.asNetError with
      | some timeout => timeout
      | none => false) then false
  else if (match err.asOpError with
      | some op => op == "read"
      | none => false) then false
  else true

/-- The body of the `for` loop of `HTTPHandler`: no deadline is set and
nothing is printed (both are commented out in the source). -/
def HTTPHandler.loop (env : Env) (pctx : Context) : Nat → Nat → Conn → Conn × LoopExit
  | 0, _, s => (s, LoopExit.running)
  | fuel + 1, i, s =>
    let s := s.emit (Event.requestReset env.pooled i)
    let err := env.resetErr i
    if err ≠ GoError.nil then
      let s := if isNotCommonNetReadError err then s else s
      (s, LoopExit.brk)
    else
      let s := s.emit (Event.responseReset env.pooled)
      let ctx := Context.withCancel pctx i
      let s := s.emit (Event.withCancel pctx ctx)
      let s := { s with cancel := some ctx }
      let s := s.emit (Event.handler ctx env.pooled i)
      if env.ishjack i then (s, LoopExit.ret)
      else
        let s := s.emit (Event.finalFlush env.pooled)
        if env.isnotkeep i then (s, LoopExit.brk)
        else HTTPHandler.loop env pctx fuel (i + 1) s

/-- The function `HTTPHandler`: the final connection state and the way the
driver ended, for a run of at most `fuel` iterations. -/
def HTTPHandler (env : Env) (pctx : Context) (fuel : Nat) : Conn × Exit :=
  let s : Conn := { trace := [Event.poolGet env.pooled], cancel := none }
  match HTTPHandler.loop env pctx fuel 0 s with
  | (s, LoopExit.running) => (s, Exit.running)
  | (s, LoopExit.ret) => (s, Exit.hijacked)
  | (s, LoopExit.brk) =>
    let s := s.emit Event.close
    let s := s.emit (Event.poolPut env.pooled)
    (s, Exit.closed)

/-- The calls of iteration `i` of `HTTPHandler` up to the handler, for a
request that parsed. -/
def HTTPHandler.dispatchEvents (env : Env) (pctx : Context) (i : Nat) : List Event :=
  [Event.requestReset env.pooled i,
   Event.responseReset env.pooled,
   Event.withCancel pctx (Context.withCancel pctx i),
   Event.handler (Context.withCancel pctx i) env.pooled i]

/-- The calls of iteration `i` of `HTTPHandler` when the handler does not hijack. -/
def HTTPHandler.servedEvents (env : Env) (pctx : Context) (i : Nat) : List Event :=
  HTTPHandler.dispatchEvents env pctx i ++ [Event.finalFlush env.pooled]

/-- The calls of the `k` iterations `i, .., i+k-1` of `HTTPHandler` when each
serves its request without a hijack. -/
def HTTPHandler.keptAlive (env : Env) (pctx : Context) : Nat → Nat → List Event
  | _, 0 => []
  | i, k + 1 => HTTPHandler.servedEvents env pctx i ++ HTTPHandler.keptAlive env pctx (i + 1) k

end ServerEudore

/-! ## `component/httptest/response.go` -/

namespace Httptest

/-- A byte slice or the bytes of a Go string. -/
abbrev Bytes := List UInt8

/-- The bytes `validHeaderFieldByte` of the Go standard library accepts: the
token characters of RFC 7230 (39 is the apostrophe, 96 the grave accent). -/
def validHeaderFieldByte (c : Char) : Bool :=
  c.isAlphanum ||
    [Char.ofNat 33, Char.ofNat 35, Char.ofNat 36, Char.ofNat 37, Char.ofNat 38, Char.ofNat 39,
      Char.ofNat 42, Char.ofNat 43, Char.ofNat 45, Char.ofNat 46, Char.ofNat 94, Char.ofNat 95,
      Char.ofNat 96, Char.ofNat 124, Char.ofNat 126].contains c

/-- The rewriting pass of `textproto.CanonicalMIMEHeaderKey`: the first letter
and every letter after a hyphen in upper case, the other letters in lower case. -/
def canonicalLetters : Bool → List Char → List Char
  | _, [] => []
  | upper, c :: cs =>
    let d := if upper then c.toUpper else c.toLower
    d :: canonicalLetters (d == Char.ofNat 45) cs

/-- The function `textproto.CanonicalMIMEHeaderKey` of the Go standard library,
after its documentation: a key with a byte that is not a token character is
returned as it is, any other key is put in canonical case. -/
def CanonicalMIMEHeaderKey (s : String) : String :=
  if s.data.all validHeaderFieldByte then String.mk (canonicalLetters true s.data) else s

/-- The type `http.Header`, a `map[string][]string`, as an association list in
which the first entry of a key is the one the map holds. -/
abbrev Header := List (String × List String)

/-- The map read `h[k]` (the zero value `nil` is the empty list). -/
def Header.index (h : Header) (k : String) : List String :=
  match h.lookup k with
  | some vv => vv
  | none => []

/-- The map write `h[k] = vv`. -/
def Header.store (h : Header) (k : String) (vv : List String) : Header :=
  (k, vv) :: h.filter (fun p => p.1 != k)

/-- The map operation `delete(h, k)`. -/
def Header.delete (h : Header) (k : String) : Header :=
  h.filter (fun p => p.1 != k)

/-- The method `http.Header.Get`: the first value of the canonical key, or `""`. -/
def Header.Get (h : Header) (key : String) : String :=
  match h.index (CanonicalMIMEHeaderKey key) with
  | [] => ""
  | v :: _ => v

/-- The method `http.Header.Set`. -/
def Header.Set (h : Header) (key value : String) : Header :=
  h.store (CanonicalMIMEHeaderKey key) [value]

/-- The method `http.Header.Add`. -/
def Header.Add (h : Header) (key value : String) : Header :=
  h.store (CanonicalMIMEHeaderKey key) (h.index (CanonicalMIMEHeaderKey key) ++ [value])

/-- The method `http.Header.Del`. -/
def Header.Del (h : Header) (key : String) : Header :=
  h.delete (CanonicalMIMEHeaderKey key)

/-- The function `http.DetectContentType` of the Go standard library: it
considers at most the first 512 bytes of `data`; the table of signatures it
matches them against is the parameter `sniff`. -/
def DetectContentType (sniff : Bytes → String) (data : Bytes) : String :=
  sniff (data.take 512)

/-- A signature table with two entries, for the examples: data that starts
with `<html` is HTML, anything else is plain text. -/
def sniffDemo (data : Bytes) : String :=
  if data.take 5 == [60, 104, 116, 109, 108] then "text/html; charset=utf-8"
  else "text/plain; charset=utf-8"

/-- The fields of `*Client` that `ResponseWriterTest` uses. -/
structure Client where
  Errs : List String
deriving DecidableEq, Repr

/-- The fields of `*RequestReaderTest` that `ResponseWriterTest` uses. -/
structure RequestReaderTest where
  Method : String
  RequestURI : String
  File : String
  Line : Int
deriving DecidableEq, Repr

/-- The struct `ResponseWriterTest`; `none` is a nil map or a nil buffer. -/
structure ResponseWriterTest where
  client : Client
  Request : RequestReaderTest
  Code : Int
  HeaderMap : Option Header
  Body : Option Bytes
  Flushed : Bool
  snapHeader : Option Header
  wroteHeader : Bool
deriving DecidableEq, Repr

/-- The function `NewResponseWriterTest`. -/
def NewResponseWriterTest (client : Client) (req : RequestReaderTest) : ResponseWriterTest :=
  { client := client
    Request := req
    Code := 200
    HeaderMap := some []
    Body := some []
    Flushed := false
    snapHeader := none
    wroteHeader := false }

/-- The method `ResponseWriterTest.Header`: the map returned is `rw.HeaderMap` itself, so
the state after the call is returned with it. -/
def ResponseWriterTest.Header (rw : ResponseWriterTest) :
    Httptest.Header × ResponseWriterTest :=
  match rw.HeaderMap with
  | some m => (m, rw)
  | none => ([], { rw with HeaderMap := some [] })

/-- A mutation `f` made by the caller through the map `rw.Header()` returned:
the map is `rw.HeaderMap`, so the mutation lands there. -/
def ResponseWriterTest.mutateHeader (rw : ResponseWriterTest)
    (f : Httptest.Header → Httptest.Header) :
    ResponseWriterTest :=
  let (m, rw) := rw.Header
  { rw with HeaderMap := some (f m) }

/-- The method `ResponseWriterTest.writeHeader`; `b = none` is the nil slice. -/
def ResponseWriterTest.writeHeader (sniff : Bytes → String) (rw : ResponseWriterTest)
    (b : Option Bytes) (str : Bytes) : ResponseWriterTest :=
  if rw.wroteHeader then rw
  else
    let str := if str.length > 512 then str.take 512 else str
    let (m, rw) := rw.Header
    let hasType := m.Get "Content-Type" != ""
    let hasTE := m.Get "Transfer-Encoding" != ""
    if !hasType && !hasTE then
      let b := match b with
        | none => str
        | some b => b
      { rw with HeaderMap := some (m.Set "Content-Type" (DetectContentType sniff b)) }
    else rw

/-- The method `ResponseWriterTest.Write`: the new state and the results `(n, err)`.  A
nil `buf` takes the same path as an empty one (`[]byte("")` is empty). -/
def ResponseWriterTest.Write (sniff : Bytes → String) (rw : ResponseWriterTest) (buf : Bytes) :
    ResponseWriterTest × Nat × GoError :=
  let rw := rw.writeHeader sniff (some buf) []
  let rw := match rw.Body with
    | some body => { rw with Body := some (body ++ buf) }
    | none => rw
  (rw, buf.length, GoError.nil)

/-- The method `ResponseWriterTest.WriteString`: the new state and the results
`(n, err)`. -/
def ResponseWriterTest.WriteString (sniff : Bytes → String) (rw : ResponseWriterTest)
    (str : Bytes) : ResponseWriterTest × Nat × GoError :=
  let rw := rw.writeHeader sniff none str
  let rw := match rw.Body with
    | some body => { rw with Body := some (body ++ str) }
    | none => rw
  (rw, str.length, GoError.nil)

/-- The function `cloneHeaderMap`: a copy of every entry with a copy of its values. -/
def cloneHeaderMap (h : Header) : Header :=
  h.map (fun p => (p.1, p.2.map id))

/-- The method `ResponseWriterTest.WriteHeader`. -/
def ResponseWriterTest.WriteHeader (rw : ResponseWriterTest) (code : Int) : ResponseWriterTest :=
  if rw.wroteHeader then rw
  else
    let rw := { rw with Code := code }
    let rw := { rw with wroteHeader := true }
    let rw := match rw.HeaderMap with
      | none => { rw with HeaderMap := some [] }
      | some _ => rw
    { rw with snapHeader := rw.HeaderMap.map cloneHeaderMap }

/-- The method `ResponseWriterTest.Flush`. -/
def ResponseWriterTest.Flush (rw : ResponseWriterTest) : ResponseWriterTest :=
  let rw := if !rw.wroteHeader then rw.WriteHeader 200 else rw
  { rw with Flushed := true }

/-- The method `ResponseWriterTest.Status`. -/
def ResponseWriterTest.Status (rw : ResponseWriterTest) : Int :=
  rw.Code

/-- What `CheckHeader` and `Out` read for a key: `rw.HeaderMap.Get(key)`
(`Get` on a nil map reads `""`). -/
def ResponseWriterTest.reportedHeader (rw : ResponseWriterTest) (key : String) : String :=
  match rw.HeaderMap with
  | some m => m.Get key
  | none => ""

end Httptest

end Eudore

namespace Eudore

namespace Httptest

/-- The method `ResponseWriterTest.Size`: the length `rw.Body.Len()` of the
body; on a nil `Body` the call panics (`none`). -/
def ResponseWriterTest.Size (rw : ResponseWriterTest) : Option Nat :=
  rw.Body.map List.length

/-- The method `ResponseWriterTest.Errorf`, for the message `msg` that
`fmt.Errorf(format, args...)` makes: the message is wrapped with the request
and the file location and appended to `rw.client.Errs`. -/
def ResponseWriterTest.Errorf (rw : ResponseWriterTest) (msg : String) : ResponseWriterTest :=
  let err := "httptest request " ++ rw.Request.Method ++ " " ++ rw.Request.RequestURI ++
    " of file location " ++ rw.Request.File ++ ":" ++ toString rw.Request.Line ++
    ", error: " ++ msg
  { rw with client := { rw.client with Errs := rw.client.Errs ++ [err] } }

/-- The method `ResponseWriterTest.CheckHeader`: the loop runs `i` over
`0 .. len(h)/2 - 1` and compares `rw.HeaderMap.Get(h[i])` with `h[i+1]`. -/
def ResponseWriterTest.CheckHeader (rw : ResponseWriterTest) (h : List String) :
    ResponseWriterTest :=
  (List.range (h.length / 2)).foldl (fun rw i =>
    if rw.reportedHeader (h.getD i "") != h.getD (i + 1) "" then
      rw.Errorf ("CheckHeader response header " ++ h.getD i "" ++ " value is " ++
        rw.reportedHeader (h.getD i "") ++ ",not is " ++ h.getD (i + 1) "")
    else rw) rw

/-- A body write: a call of `Write` or of `WriteString`. -/
inductive WriteCall
  | Write (buf : Bytes)
  | WriteString (str : Bytes)
deriving DecidableEq, Repr

/-- The argument of a body write. -/
def WriteCall.arg : WriteCall → Bytes
  | WriteCall.Write buf => buf
  | WriteCall.WriteString str => str

/-- One body write on `rw`: the new state and the results `(n, err)`. -/
def ResponseWriterTest.call (sniff : Bytes → String) (rw : ResponseWriterTest) :
    WriteCall → ResponseWriterTest × Nat × GoError
  | WriteCall.Write buf => rw.Write sniff buf
  | WriteCall.WriteString str => rw.WriteString sniff str

/-- A sequence of body writes on `rw`, in order: the final state and the
results of the calls. -/
def ResponseWriterTest.calls (sniff : Bytes → String) :
    ResponseWriterTest → List WriteCall → ResponseWriterTest × List (Nat × GoError)
  | rw, [] => (rw, [])
  | rw, c :: cs =>
    let r := rw.call sniff c
    let rest := ResponseWriterTest.calls sniff r.1 cs
    (rest.1, r.2 :: rest.2)

/-- A response with the headers `A: X`, `X: B` and `B: 2`, for the examples. -/
def checkHeaderDemo : ResponseWriterTest :=
  (((NewResponseWriterTest ⟨[]⟩ ⟨"GET", "/", "a_test.go", 1⟩).mutateHeader
    (fun m => m.Set "A" "X")).mutateHeader (fun m => m.Set "X" "B")).mutateHeader
    (fun m => m.Set "B" "2")

end Httptest

end Eudore

namespace Eudore

/-! ## `controller.go`: route path and method from a controller method name -/

namespace Controller

/-- The test `0x40 < c && c < 0x5B` of `splitName` and `getFirstUp`: the rune is
an upper-case ASCII letter. -/
def isUpperRune (c : Char) : Bool :=
  0x40 < c.toNat && c.toNat < 0x5B

/-- The loop of `splitName` over the runes of `name` that remain, at index `i`,
with the variables `head` and `strs`.  Indices count runes; the source counts
bytes, and cuts `name` at the same places. -/
def splitName.go (name : List Char) : List Char → Nat → Nat → List (List Char) → List (List Char)
  | [], _, head, strs => strs ++ [name.drop head]
  | c :: cs, i, head, strs =>
    if isUpperRune c && i != 0 then
      splitName.go name cs (i + 1) i (strs ++ [(name.drop head).take (i - head)])
    else splitName.go name cs (i + 1) head strs

/-- The function `splitName`. -/
def splitName (name : List Char) : List (List Char) :=
  splitName.go name name 0 0 []

/-- The function `checkAllowMethod`. -/
def checkAllowMethod (method : List Char) : Bool :=
  ["Any".data, "Get".data, "Post".data, "Put".data, "Delete".data, "Head".data, "Patch".data,
    "Options".data, "Connect".data, "Trace".data].any (fun i => i == method)

/-- The loop of `getRouteByName` over the words that remain, with the path
built so far. -/
def getRouteByName.loop : List (List Char) → List Char → List Char
  | [], name => name
  | [w], name => if w = "By".data then name ++ "/*".data else name ++ "/".data ++ w
  | w :: p :: rest, name =>
    if w = "By".data then getRouteByName.loop rest (name ++ "/:".data ++ p)
    else getRouteByName.loop (p :: rest) (name ++ "/".data ++ w)

/-- The function `getRouteByName`; `lower` is `strings.ToLower`. -/
def getRouteByName (lower : List Char → List Char) (name : List Char) : List Char :=
  let names := splitName name
  let names := if checkAllowMethod (names.headD []) then names.drop 1 else names
  if names.length = 0 then "/*".data
  else lower (getRouteByName.loop names [])

/-- The loop of `getFirstUp` over the runes of `name` that remain, at index `i`. -/
def getFirstUp.go (name : List Char) : List Char → Nat → List Char
  | [], _ => name
  | c :: cs, i => if isUpperRune c && i != 0 then name.take i else getFirstUp.go name cs (i + 1)

/-- The function `getFirstUp`. -/
def getFirstUp (name : List Char) : List Char :=
  getFirstUp.go name name 0

/-- The function `getRouteMethod`; `upper` is `strings.ToUpper`. -/
def getRouteMethod (upper : List Char → List Char) (name : List Char) : List Char :=
  let method := getFirstUp name
  if checkAllowMethod method then upper method else "ANY".data

/-- A capitalised word: an upper-case ASCII letter followed by runes that are
not upper-case ASCII letters. -/
def isWord : List Char → Bool
  | [] => false
  | c :: cs => isUpperRune c && cs.all (fun d => !isUpperRune d)

/-- The path segments the words of a method name stand for, as the doc comment
of `ControllerInjectWithPool` describes them: `/w` for a word, `/:w` for the
word that follows `By`, `/*` for a `By` that nothing follows. -/
def routeSegments : List (List Char) → List (List Char)
  | [] => []
  | [w] => if w = "By".data then ["/*".data] else ["/".data ++ w]
  | w :: p :: rest =>
    if w = "By".data then ("/:".data ++ p) :: routeSegments rest
    else ("/".data ++ w) :: routeSegments (p :: rest)

/-- The function `strings.ToLower` on ASCII text. -/
def asciiLower (s : List Char) : List Char := s.map Char.toLower

/-- The function `strings.ToUpper` on ASCII text. -/
def asciiUpper (s : List Char) : List Char := s.map Char.toUpper

end Controller

end Eudore

namespace Eudore

/-! ## Go maps -/

/-- A Go map as an association list; the first entry of a key is the one the
map holds. -/
abbrev GoMap (K V : Type) := List (K × V)

/-- The map read `v, ok := m[k]`. -/
def GoMap.get {K V : Type} [BEq K] (m : GoMap K V) (k : K) : Option V :=
  m.lookup k

/-- The map write `m[k] = v`. -/
def GoMap.store {K V : Type} [BEq K] (m : GoMap K V) (k : K) (v : V) : GoMap K V :=
  (k, v) :: m.filter (fun p => p.1 != k)

/-- The map operation `delete(m, k)`. -/
def GoMap.delete {K V : Type} [BEq K] (m : GoMap K V) (k : K) : GoMap K V :=
  m.filter (fun p => p.1 != k)

/-! ## `component/ram/acl.go` -/

namespace Ram

/-- The struct `ACL` (without its lock); a set `map[int]struct{}` is a map to
`Unit`. -/
structure ACL where
  AllowBinds : GoMap Int (GoMap Int Unit)
  DenyBinds : GoMap Int (GoMap Int Unit)
  Permissions : GoMap String Int
deriving DecidableEq, Repr

/-- The function `NewACL`. -/
def NewACL : ACL :=
  { AllowBinds := [], DenyBinds := [], Permissions := [] }

/-- The read `_, ok = binds[id][permid]` of `Match`: a missing `id` gives the
nil map, which holds nothing. -/
def bound (binds : GoMap Int (GoMap Int Unit)) (id permid : Int) : Bool :=
  match GoMap.get binds id with
  | some ps => (GoMap.get ps permid).isSome
  | none => false

/-- The method `ACL.Match` (the context argument is not used). -/
def ACL.Match (acl : ACL) (id : Int) (perm : String) : Bool × Bool :=
  match GoMap.get acl.Permissions perm with
  | some permid =>
    if bound acl.AllowBinds id permid then (true, true)
    else if bound acl.DenyBinds id permid then (false, true)
    else (false, false)
  | none => (false, false)

/-- The method `ACL.AddPermission`. -/
def ACL.AddPermission (acl : ACL) (id : Int) (perm : String) : ACL :=
  { acl with Permissions := GoMap.store acl.Permissions perm id }

/-- The method `ACL.DeletePermission`. -/
def ACL.DeletePermission (acl : ACL) (perm : String) : ACL :=
  { acl with Permissions := GoMap.delete acl.Permissions perm }

/-- The body shared by `BindAllowPermission` and `BindDenyPermission`, on the
map of binds it works on. -/
def bindIn (binds : GoMap Int (GoMap Int Unit)) (id permid : Int) : GoMap Int (GoMap Int Unit) :=
  match GoMap.get binds id with
  | some ps => GoMap.store binds id (GoMap.store ps permid ())
  | none => GoMap.store binds id (GoMap.store [] permid ())

/-- The body shared by `UnbindAllowPermission` and `UnbindDenyPermission`. -/
def unbindIn (binds : GoMap Int (GoMap Int Unit)) (id permid : Int) :
    GoMap Int (GoMap Int Unit) :=
  match GoMap.get binds id with
  | some ps =>
    let ps := GoMap.delete ps permid
    if ps.length = 0 then GoMap.delete binds id else GoMap.store binds id ps
  | none => binds

/-- The method `ACL.BindAllowPermission`. -/
def ACL.BindAllowPermission (acl : ACL) (id permid : Int) : ACL :=
  { acl with AllowBinds := bindIn acl.AllowBinds id permid }

/-- The method `ACL.BindDenyPermission`. -/
def ACL.BindDenyPermission (acl : ACL) (id permid : Int) : ACL :=
  { acl with DenyBinds := bindIn acl.DenyBinds id permid }

/-- The method `ACL.BindPermission`. -/
def ACL.BindPermission (acl : ACL) (id permid : Int) (allow : Bool) : ACL :=
  if allow then acl.BindAllowPermission id permid else acl.BindDenyPermission id permid

/-- The method `ACL.UnbindAllowPermission`. -/
def ACL.UnbindAllowPermission (acl : ACL) (id permid : Int) : ACL :=
  { acl with AllowBinds := unbindIn acl.AllowBinds id permid }

/-- The method `ACL.UnbindDenyPermission`. -/
def ACL.UnbindDenyPermission (acl : ACL) (id permid : Int) : ACL :=
  { acl with DenyBinds := unbindIn acl.DenyBinds id permid }

/-- The method `ACL.UnbindPermission`. -/
def ACL.UnbindPermission (acl : ACL) (id permid : Int) : ACL :=
  (acl.UnbindAllowPermission id permid).UnbindDenyPermission id permid

/-- A call that changes an `ACL`. -/
inductive ACLCall
  | AddPermission (id : Int) (perm : String)
  | DeletePermission (perm : String)
  | BindPermission (id permid : Int) (allow : Bool)
  | BindAllowPermission (id permid : Int)
  | BindDenyPermission (id permid : Int)
  | UnbindPermission (id permid : Int)
  | UnbindAllowPermission (id permid : Int)
  | UnbindDenyPermission (id permid : Int)
deriving DecidableEq, Repr

/-- One call on an `ACL`. -/
def ACL.call (acl : ACL) : ACLCall → ACL
  | ACLCall.AddPermission id perm => acl.AddPermission id perm
  | ACLCall.DeletePermission perm => acl.DeletePermission perm
  | ACLCall.BindPermission id permid allow => acl.BindPermission id permid allow
  | ACLCall.BindAllowPermission id permid => acl.BindAllowPermission id permid
  | ACLCall.BindDenyPermission id permid => acl.BindDenyPermission id permid
  | ACLCall.UnbindPermission id permid => acl.UnbindPermission id permid
  | ACLCall.UnbindAllowPermission id permid => acl.UnbindAllowPermission id permid
  | ACLCall.UnbindDenyPermission id permid => acl.UnbindDenyPermission id permid

/-- The state `NewACL` after a sequence of calls, oldest first. -/
def ACL.after (calls : List ACLCall) : ACL :=
  calls.foldl ACL.call NewACL

/-- What one call does to the registration of `perm`, by the words of the
claim: `AddPermission` registers it to an id, `DeletePermission` removes it. -/
def registeredStep (perm : String) (r : Option Int) : ACLCall → Option Int
  | ACLCall.AddPermission id p => if p = perm then some id else r
  | ACLCall.DeletePermission p => if p = perm then none else r
  | _ => r

/-- The permission id `perm` is registered to after the calls, if any. -/
def registered (calls : List ACLCall) (perm : String) : Option Int :=
  calls.foldl (registeredStep perm) none

/-- What one call does to "the most recent allow bind/unbind on `(id, p)` was a
bind". -/
def allowStep (id p : Int) (b : Bool) : ACLCall → Bool
  | ACLCall.BindPermission i q true => if id = i ∧ p = q then true else b
  | ACLCall.BindAllowPermission i q => if id = i ∧ p = q then true else b
  | ACLCall.UnbindPermission i q => if id = i ∧ p = q then false else b
  | ACLCall.UnbindAllowPermission i q => if id = i ∧ p = q then false else b
  | _ => b

/-- Whether the most recent allow bind/unbind on `(id, p)` was a bind. -/
def lastAllowIsBind (calls : List ACLCall) (id p : Int) : Bool :=
  calls.foldl (allowStep id p) false

/-- What one call does to "the most recent deny bind/unbind on `(id, p)` was a
bind". -/
def denyStep (id p : Int) (b : Bool) : ACLCall → Bool
  | ACLCall.BindPermission i q false => if id = i ∧ p = q then true else b
  | ACLCall.BindDenyPermission i q => if id = i ∧ p = q then true else b
  | ACLCall.UnbindPermission i q => if id = i ∧ p = q then false else b
  | ACLCall.UnbindDenyPermission i q => if id = i ∧ p = q then false else b
  | _ => b

/-- Whether the most recent deny bind/unbind on `(id, p)` was a bind. -/
def lastDenyIsBind (calls : List ACLCall) (id p : Int) : Bool :=
  calls.foldl (denyStep id p) false

/-- The result of `Match(id, perm)` that the claim gives for a history of calls. -/
def matchByHistory (calls : List ACLCall) (id : Int) (perm : String) : Bool × Bool :=
  match registered calls perm with
  | none => (false, false)
  | some p =>
    if lastAllowIsBind calls id p then (true, true)
    else if lastDenyIsBind calls id p then (false, true)
    else (false, false)

end Ram

end Eudore

namespace Eudore

/-! ## `middleware/ram/pbac.go` -/

namespace MiddlewareRam

/-- The function `strings.Split(s, sep)` of the Go standard library for a
separator of one rune: the pieces of `s` between the separators, one more than
there are separators. -/
def Split (sep : Char) : List Char → List (List Char)
  | [] => [[]]
  | c :: cs =>
    if c = sep then [] :: Split sep cs
    else
      match Split sep cs with
      | w :: ws => (c :: w) :: ws
      | [] => [[c]]

/-- Whether a rune is a decimal digit. -/
def isDigit (c : Char) : Bool :=
  48 ≤ c.toNat && c.toNat ≤ 57

/-- The value of a run of decimal digits. -/
def digitsValue (ds : List Char) : Nat :=
  ds.foldl (fun a c => a * 10 + (c.toNat - 48)) 0

/-- Whether a text starts with the sign `-`. -/
def hasMinus : List Char → Bool
  | '-' :: _ => true
  | _ => false

/-- A text without its leading sign `+` or `-`, if it has one. -/
def stripSign : List Char → List Char
  | '-' :: r => r
  | '+' :: r => r
  | s => s

/-- The function `strconv.Atoi` of the Go standard library, after its
documentation, for a 64-bit `int`: an optional sign and decimal digits; the
value and whether the error is non-nil.  A text that is not of that form
gives 0, a value out of range gives the nearest `int`. -/
def Atoi (s : List Char) : Int × Bool :=
  let ds := stripSign s
  if ds = [] ∨ ds.all isDigit = false then (0, true)
  else
    let n := digitsValue ds
    if hasMinus s then
      if n > 2 ^ 63 then (-(2 ^ 63 : Int), true) else (-(n : Int), false)
    else
      if n > 2 ^ 63 - 1 then ((2 ^ 63 - 1 : Int), true) else ((n : Int), false)

/-- The struct `Pbac`, of which the bind methods use `PolicyBinds` only. -/
structure Pbac where
  PolicyBinds : GoMap Int (List Int)
deriving DecidableEq, Repr

/-- The function `NewPbac`. -/
def NewPbac : Pbac :=
  { PolicyBinds := [] }

/-- The read `p.PolicyBinds[id]`: the nil slice for a missing key. -/
def Pbac.binds (p : Pbac) (id : Int) : List Int :=
  match GoMap.get p.PolicyBinds id with
  | some bs => bs
  | none => []

/-- The method `Pbac.BindPolicy`. -/
def Pbac.BindPolicy (p : Pbac) (id policyid : Int) : Pbac :=
  { p with PolicyBinds := GoMap.store p.PolicyBinds id (p.binds id ++ [policyid]) }

/-- The method `Pbac.BindStrings`. -/
def Pbac.BindStrings (p : Pbac) (id : Int) (str : List Char) : Pbac :=
  let strs := Split ',' str
  let ps := strs.map (fun s => (Atoi s).1)
  { p with PolicyBinds := GoMap.store p.PolicyBinds id (p.binds id ++ ps) }

/-- The decimal digit for a number below ten. -/
def digitChar (d : Nat) : Char :=
  ['0', '1', '2', '3', '4', '5', '6', '7', '8', '9'].getD d '0'

/-- The decimal digits of `n` in front of `acc`; `fuel` bounds the number of
digits. -/
def natDecimal.go : Nat → Nat → List Char → List Char
  | 0, _, acc => acc
  | fuel + 1, n, acc =>
    if n / 10 = 0 then digitChar (n % 10) :: acc
    else natDecimal.go fuel (n / 10) (digitChar (n % 10) :: acc)

/-- A natural number written in decimal. -/
def natDecimal (n : Nat) : List Char :=
  natDecimal.go (n + 1) n []

/-- An integer written in decimal. -/
def decimal : Int → List Char
  | Int.ofNat n => natDecimal n
  | Int.negSucc n => '-' :: natDecimal (n + 1)

/-- Texts joined with commas. -/
def joinComma : List (List Char) → List Char
  | [] => []
  | [w] => w
  | w :: v :: ws => w ++ ',' :: joinComma (v :: ws)

end MiddlewareRam

end Eudore

namespace Eudore

/-! ## `component/session/session.go`: the store `StoreMap` -/

namespace Session

/-- The error `ErrDataNotFound`. -/
def ErrDataNotFound : GoError := GoError.other "data not found"

/-- The struct `storeMapKey`: the data of a session, a `map[string]interface{}`
with values of type `V`, and the time it was stored at. -/
structure storeMapKey (V : Type) where
  data : GoMap String V
  time : Int
deriving DecidableEq, Repr

/-- The struct `StoreMap`: its `sync.Map`, used by one caller at a time. -/
structure StoreMap (V : Type) where
  data : GoMap String (storeMapKey V)
deriving DecidableEq, Repr

/-- A new, empty `StoreMap`. -/
def StoreMap.empty (V : Type) : StoreMap V :=
  { data := [] }

/-- The method `StoreMap.Insert`; `now` is the reading of `time.Now()`. -/
def StoreMap.Insert {V : Type} (store : StoreMap V) (key : String) (now : Int) : StoreMap V :=
  { data := GoMap.store store.data key { data := [], time := now } }

/-- The method `StoreMap.Delete`. -/
def StoreMap.Delete {V : Type} (store : StoreMap V) (key : String) : StoreMap V :=
  { data := GoMap.delete store.data key }

/-- The method `StoreMap.Update`; `now` is the reading of `time.Now()`. -/
def StoreMap.Update {V : Type} (store : StoreMap V) (key : String) (val : GoMap String V)
    (now : Int) : StoreMap V :=
  { data := GoMap.store store.data key { data := val, time := now } }

/-- The method `StoreMap.Select`: the data (`none` is the nil map) and the error. -/
def StoreMap.Select {V : Type} (store : StoreMap V) (key : String) :
    Option (GoMap String V) × GoError :=
  match GoMap.get store.data key with
  | some entry => (some entry.data, GoError.nil)
  | none => (none, ErrDataNotFound)

/-- The method `StoreMap.Clean`: `Range` visits every entry of the map, and the
entries stored before `expires` are deleted. -/
def StoreMap.Clean {V : Type} (store : StoreMap V) (expires : Int) : StoreMap V :=
  { data := store.data.foldl (fun m p =>
      if expires > p.2.time then GoMap.delete m p.1 else m) store.data }

/-- A call that changes a `StoreMap`, with the clock reading it makes. -/
inductive StoreCall (V : Type)
  | Insert (key : String) (now : Int)
  | Delete (key : String)
  | Update (key : String) (val : GoMap String V) (now : Int)
  | Clean (expires : Int)

/-- One call on a `StoreMap`. -/
def StoreMap.call {V : Type} (store : StoreMap V) : StoreCall V → StoreMap V
  | StoreCall.Insert key now => store.Insert key now
  | StoreCall.Delete key => store.Delete key
  | StoreCall.Update key val now => store.Update key val now
  | StoreCall.Clean expires => store.Clean expires

/-- The empty store after a sequence of calls, oldest first. -/
def StoreMap.after {V : Type} (calls : List (StoreCall V)) : StoreMap V :=
  calls.foldl StoreMap.call (StoreMap.empty V)

/-- What one call does to the data stored for `key`, by the words of the
claim: `Insert` stores an empty map, `Update` stores its value, `Delete` of
the key removes it, `Clean` removes it when it was stored before `expires`. -/
def storedStep {V : Type} (key : String) (cur : Option (storeMapKey V)) :
    StoreCall V → Option (storeMapKey V)
  | StoreCall.Insert k now => if key = k then some { data := [], time := now } else cur
  | StoreCall.Delete k => if key = k then none else cur
  | StoreCall.Update k val now => if key = k then some { data := val, time := now } else cur
  | StoreCall.Clean expires =>
    match cur with
    | some entry => if expires > entry.time then none else some entry
    | none => none

/-- The data most recently stored for `key` and not removed since, for a
history of calls. -/
def stored {V : Type} (calls : List (StoreCall V)) (key : String) : Option (storeMapKey V) :=
  calls.foldl (storedStep key) none

end Session

end Eudore

namespace Eudore

/-! ## `server.go`: `TimeDuration.UnmarshalJSON` -/

namespace Server

/-- The slice expression `s[lo:hi]` of Go: it panics (`none`) unless
`lo ≤ hi ≤ len(s)`. -/
def goSlice (s : List UInt8) (lo hi : Nat) : Option (List UInt8) :=
  if lo ≤ hi ∧ hi ≤ s.length then some ((s.take hi).drop lo) else none

/-- How a call of `UnmarshalJSON` ends: with a run-time panic, or by returning
an error (`GoError.nil` for none) with the receiver holding `d`. -/
inductive Outcome
  | panic
  | returned (d : Int) (err : GoError)
deriving DecidableEq, Repr

/-- The error `fmt.Errorf("invalid duration type %T, value: '%s'", b, b)`. -/
def errInvalidDuration : GoError := GoError.other "invalid duration"

/-- The method `TimeDuration.UnmarshalJSON` on a receiver that holds `d`
nanoseconds.  `ParseInt` is `strconv.ParseInt(str, 10, 64)` and
`ParseDuration` is `time.ParseDuration`, each giving its value when its error
is nil; 34 is the double quote. -/
def UnmarshalJSON (ParseInt ParseDuration : List UInt8 → Option Int) (d : Int)
    (b : List UInt8) : Outcome :=
  let str := b
  let sliced :=
    if str ≠ [] ∧ str.head? = some 34 ∧ str.getLast? = some 34 then
      goSlice str 1 (str.length - 1)
    else some str
  match sliced with
  | none => Outcome.panic
  | some str =>
    match ParseInt str with
    | some val => Outcome.returned val GoError.nil
    | none =>
      match ParseDuration str with
      | some t => Outcome.returned t GoError.nil
      | none => Outcome.returned d errInvalidDuration

/-- A text without one pair of surrounding double quotes, if it has one, by
the words of the claim. -/
def unquote (b : List UInt8) : List UInt8 :=
  if 2 ≤ b.length ∧ b.head? = some 34 ∧ b.getLast? = some 34 then
    (b.drop 1).take (b.length - 2)
  else b

end Server


end Eudore

namespace Eudore

/-! ## The cancel function of a request -/

/-- The value of `resp.cancel` after one more call of the driver: the driver
assigns the cancel function of a context to it right after deriving the
context (`resp.cancel = cancelCtx`). -/
def storeStep (c : Option Context) : Event → Option Context
  | Event.withCancel _ child => some child
  | _ => c

/-- The value of `resp.cancel` after the calls `t`, from the value `c`. -/
def storedCancel (c : Option Context) (t : List Event) : Option Context :=
  t.foldl storeStep c

/-- Modelled from the spec: the end of `Response.finalFlush`, whose source is
not under src/ (the driver only stores the cancel function in `resp.cancel`
for the response to call).  The spec has the request-scoped context cancelled
once finalize completes, on the way out of Finalizing ("cancel the
request-scoped context and loop back", "cancel context, close the transport",
"it is canceled once finalize completes"): the call commits and flushes the
response and then invokes the cancel function held in `resp.cancel`. -/
def finalFlushCalls (cancel : Option Context) (resp : Nat) : List Event :=
  match cancel with
  | some ctx => [Event.finalFlush resp, Event.cancel ctx]
  | none => [Event.finalFlush resp]

/-- One call of the driver with the calls made inside it: a `finalFlush` is
followed by what `finalFlushCalls` has it do. -/
def expandCall (c : Option Context) : Event → List Event
  | Event.finalFlush resp => finalFlushCalls c resp
  | e => [e]

/-- The calls of a run of the driver with the calls made inside `finalFlush`;
`c` is the value of `resp.cancel` at the start. -/
def withFinalize : Option Context → List Event → List Event
  | _, [] => []
  | c, e :: rest => expandCall c e ++ withFinalize (storeStep c e) rest

namespace ProtocolHttp

/-- The calls of iteration `i` of `EudoreConn` when the handler does not hijack,
with the cancellation made inside `finalFlush`. -/
def EudoreConn.finalizedEvents (h : HttpHandler) (env : Env) (pctx : Context) (i : Nat) :
    List Event :=
  EudoreConn.dispatchEvents h env pctx i ++
    [Event.finalFlush env.pooled, Event.cancel (Context.withCancel pctx i)]

/-- The calls of the `k` iterations `i, .., i+k-1` of `EudoreConn` when each
serves its request without a hijack, with the cancellations made inside
`finalFlush`. -/
def EudoreConn.keptAliveFinalized (h : HttpHandler) (env : Env) (pctx : Context) :
    Nat → Nat → List Event
  | _, 0 => []
  | i, k + 1 =>
    EudoreConn.finalizedEvents h env pctx i ++ EudoreConn.keptAliveFinalized h env pctx (i + 1) k

end ProtocolHttp

/-! ## `logger.go`: `LoggerInit` -/

namespace Logger

/-- The five methods of `Logout` that write an entry (each with its `f` form). -/
inductive LogMethod
  | Debug
  | Info
  | Warning
  | Error
  | Fatal
deriving DecidableEq, Repr

/-- The level a writing method of `entryInit` sets: `LogDebug` = 0 up to
`LogFatal` = 4. -/
def LogMethod.level : LogMethod → Int
  | LogMethod.Debug => 0
  | LogMethod.Info => 1
  | LogMethod.Warning => 2
  | LogMethod.Error => 3
  | LogMethod.Fatal => 4

/-- The type `Fields`, a `map[string]interface{}` that may be nil. -/
abbrev Fields := Option (GoMap String String)

/-- The struct `entryInit` (without its back pointer to the logger). -/
structure entryInit where
  Level : Int
  Fields : Fields
  Time : Int
  Message : String
deriving DecidableEq, Repr

/-- The struct `LoggerInit` (without its lock) with the entries it has made:
`heap` holds every `entryInit` allocated by `newEntry`, a `*entryInit` is the
index of its entry in `heap`, and `data` is the slice of pointers `l.data`. -/
structure LoggerInit where
  level : Int
  heap : List entryInit
  data : List Nat
deriving DecidableEq, Repr

/-- The function `NewLoggerInit`. -/
def NewLoggerInit : LoggerInit :=
  { level := 0, heap := [], data := [] }

/-- The entry a pointer points to. -/
def LoggerInit.deref (l : LoggerInit) (e : Nat) : entryInit :=
  l.heap.getD e { Level := 0, Fields := none, Time := 0, Message := "" }

/-- An assignment through a pointer. -/
def LoggerInit.assign (l : LoggerInit) (e : Nat) (v : entryInit) : LoggerInit :=
  { l with heap := l.heap.set e v }

/-- The method `LoggerInit.newEntry`: a new entry with the clock reading `now`
as its time, and the pointer to it. -/
def LoggerInit.newEntry (l : LoggerInit) (now : Int) : LoggerInit × Nat :=
  ({ l with heap := l.heap ++ [{ Level := 0, Fields := none, Time := now, Message := "" }] },
    l.heap.length)

/-- The method `LoggerInit.putEntry`: the pointer itself is appended. -/
def LoggerInit.putEntry (l : LoggerInit) (entry : Nat) : LoggerInit :=
  if (l.deref entry).Level ≥ l.level then { l with data := l.data ++ [entry] } else l

/-- The method `LoggerInit.SetLevel`. -/
def LoggerInit.SetLevel (l : LoggerInit) (level : Int) : LoggerInit :=
  { l with level := level }

/-- The methods `entryInit.Debug`, `Info`, `Warning`, `Error`, `Fatal` and their
`f` forms on the entry `e`: the level and the message of the entry are
assigned, then `e.logger.putEntry(e)`; `message` is the formatted text. -/
def LoggerInit.entryWrite (l : LoggerInit) (e : Nat) (method : LogMethod) (message : String) :
    LoggerInit :=
  let l := l.assign e { l.deref e with Level := method.level }
  let l := l.assign e { l.deref e with Message := message }
  l.putEntry e

/-- The method `entryInit.WithField` on the entry `e`; it returns `e`. -/
def LoggerInit.entryWithField (l : LoggerInit) (e : Nat) (key value : String) : LoggerInit :=
  let l := match (l.deref e).Fields with
    | none => l.assign e { l.deref e with Fields := some [] }
    | some _ => l
  match (l.deref e).Fields with
  | some m => l.assign e { l.deref e with Fields := some (GoMap.store m key value) }
  | none => l

/-- The method `entryInit.WithFields` on the entry `e`; it returns `e`. -/
def LoggerInit.entryWithFields (l : LoggerInit) (e : Nat) (fields : Fields) : LoggerInit :=
  l.assign e { l.deref e with Fields := fields }

/-- The method `LoggerInit.WithField`: `l.newEntry().WithField(key, value)`; the
`Logout` returned is the pointer to the new entry. -/
def LoggerInit.WithField (l : LoggerInit) (now : Int) (key value : String) : LoggerInit × Nat :=
  let r := l.newEntry now
  (r.1.entryWithField r.2 key value, r.2)

/-- The method `LoggerInit.WithFields`: `l.newEntry().WithFields(fields)`. -/
def LoggerInit.WithFields (l : LoggerInit) (now : Int) (fields : Fields) : LoggerInit × Nat :=
  let r := l.newEntry now
  (r.1.entryWithFields r.2 fields, r.2)

/-- The methods `LoggerInit.Debug`, `Info`, `Warning`, `Error`, `Fatal` and their
`f` forms: the same method on `l.newEntry()`. -/
def LoggerInit.write (l : LoggerInit) (now : Int) (method : LogMethod) (message : String) :
    LoggerInit :=
  let r := l.newEntry now
  r.1.entryWrite r.2 method message

/-- A call on the next logger made by `NextHandler`:
`logger.WithFields(fields).WithField("time", time).Method(message)`. -/
structure Forwarded where
  method : LogMethod
  fields : Fields
  time : Int
  message : String
deriving DecidableEq, Repr

/-- The method `LoggerInit.NextHandler`: the logger after the call and the
calls made on the next logger, in order.  Each pointer of `l.data` is read
when the loop reaches it. -/
def LoggerInit.NextHandler (l : LoggerInit) : LoggerInit × List Forwarded :=
  let out := l.data.foldl (fun out p =>
    let e := l.deref p
    if e.Level = 0 then out ++ [⟨LogMethod.Debug, e.Fields, e.Time, e.Message⟩]
    else if e.Level = 1 then out ++ [⟨LogMethod.Info, e.Fields, e.Time, e.Message⟩]
    else if e.Level = 2 then out ++ [⟨LogMethod.Warning, e.Fields, e.Time, e.Message⟩]
    else if e.Level = 3 then out ++ [⟨LogMethod.Error, e.Fields, e.Time, e.Message⟩]
    else if e.Level = 4 then out ++ [⟨LogMethod.Fatal, e.Fields, e.Time, e.Message⟩]
    else out) []
  ({ l with data := [] }, out)

end Logger

end Eudore

/-! # Theorems -/

namespace Eudore

/-! ## The connection drivers -/

theorem ProtocolHttp.EudoreConn.loop_keptAlive (h : ProtocolHttp.HttpHandler) (env : Env)
    (pctx : Context) (fuel : Nat) : ∀ (k i : Nat) (s : Conn),
    (∀ j, i ≤ j → j < i + k →
      env.resetErr j = GoError.nil ∧ env.ishjack j = false ∧ env.isnotkeep j = false) →
    ProtocolHttp.EudoreConn.loop h env pctx (k + fuel) i s =
      ProtocolHttp.EudoreConn.loop h env pctx fuel (i + k)
        { trace := s.trace ++ ProtocolHttp.EudoreConn.keptAlive h env pctx i k,
          cancel := lastCancel pctx s.cancel i k } := by
  intro k
  induction k with
  | zero =>
    intro i s _
    simp [ProtocolHttp.EudoreConn.keptAlive, lastCancel]
  | succ k ih =>
    intro i s hk
    obtain ⟨h1, h2, h3⟩ := hk i (le_refl _) (by omega)
    have hf : k + 1 + fuel = (k + fuel) + 1 := by omega
    rw [hf, ProtocolHttp.EudoreConn.loop]
    simp only [h1, h2, h3, ne_eq, not_true_eq_false, if_false, Bool.false_eq_true]
    rw [ih (i + 1) _ (fun j hj1 hj2 => hk j (by omega) (by omega))]
    have hi : i + 1 + k = i + (k + 1) := by omega
    rw [hi]
    congr 1
    simp only [Conn.emit, ProtocolHttp.EudoreConn.keptAlive,
      ProtocolHttp.EudoreConn.servedEvents, ProtocolHttp.EudoreConn.dispatchEvents,
      List.append_assoc, List.singleton_append, List.cons_append, List.nil_append, Conn.mk.injEq]
    refine ⟨trivial, ?_⟩
    simp only [lastCancel, Nat.succ_ne_zero, if_false]
    by_cases hk0 : k = 0
    · simp [hk0]
    · simp only [hk0, if_false]
      congr 2
      omega

theorem ServerEudore.HTTPHandler.serve_keptAlive (env : Env) (pctx : Context) (fuel : Nat) :
    ∀ (k i : Nat) (s : Conn),
    (∀ j, i ≤ j → j < i + k →
      env.resetErr j = GoError.nil ∧ env.ishjack j = false ∧ env.isnotkeep j = false) →
    ServerEudore.HTTPHandler.loop env pctx (k + fuel) i s =
      ServerEudore.HTTPHandler.loop env pctx fuel (i + k)
        { trace := s.trace ++ ServerEudore.HTTPHandler.keptAlive env pctx i k,
          cancel := lastCancel pctx s.cancel i k } := by
  intro k
  induction k with
  | zero =>
    intro i s _
    simp [ServerEudore.HTTPHandler.keptAlive, lastCancel]
  | succ k ih =>
    intro i s hk
    obtain ⟨h1, h2, h3⟩ := hk i (le_refl _) (by omega)
    have hf : k + 1 + fuel = (k + fuel) + 1 := by omega
    rw [hf, ServerEudore.HTTPHandler.loop]
    simp only [h1, h2, h3, ne_eq, not_true_eq_false, if_false, Bool.false_eq_true]
    rw [ih (i + 1) _ (fun j hj1 hj2 => hk j (by omega) (by omega))]
    have hi : i + 1 + k = i + (k + 1) := by omega
    rw [hi]
    congr 1
    simp only [Conn.emit, ServerEudore.HTTPHandler.keptAlive,
      ServerEudore.HTTPHandler.servedEvents, ServerEudore.HTTPHandler.dispatchEvents,
      List.append_assoc, List.singleton_append, List.cons_append, List.nil_append, Conn.mk.injEq]
    refine ⟨trivial, ?_⟩
    simp only [lastCancel, Nat.succ_ne_zero, if_false]
    by_cases hk0 : k = 0
    · simp [hk0]
    · simp only [hk0, if_false]
      congr 2
      omega

/-- The run of `EudoreConn` up to iteration `n` when the iterations before it
loop back: the loop is entered at iteration `n` with the calls of the first
`n` iterations made. -/
theorem ProtocolHttp.EudoreConn.loop_reach (h : ProtocolHttp.HttpHandler) (env : Env)
    (pctx : Context) (n m : Nat) (s : Conn) (hlb : env.loopsBack n) :
    ProtocolHttp.EudoreConn.loop h env pctx (n + m) 0 s =
      ProtocolHttp.EudoreConn.loop h env pctx m n
        { trace := s.trace ++ ProtocolHttp.EudoreConn.keptAlive h env pctx 0 n,
          cancel := lastCancel pctx s.cancel 0 n } := by
  have := ProtocolHttp.EudoreConn.loop_keptAlive h env pctx m n 0 s
    (fun j _ hj => hlb j (by omega))
  simpa using this

theorem ServerEudore.HTTPHandler.serve_reach (env : Env) (pctx : Context) (n m : Nat) (s : Conn)
    (hlb : env.loopsBack n) :
    ServerEudore.HTTPHandler.loop env pctx (n + m) 0 s =
      ServerEudore.HTTPHandler.loop env pctx m n
        { trace := s.trace ++ ServerEudore.HTTPHandler.keptAlive env pctx 0 n,
          cancel := lastCancel pctx s.cancel 0 n } := by
  have := ServerEudore.HTTPHandler.serve_keptAlive env pctx m n 0 s
    (fun j _ hj => hlb j (by omega))
  simpa using this

/-- C1: in both drivers, when iteration `n` is reached and its handler comes
back with the hijack flag set, the driver returns there: the handler
invocation is the last call it makes (no `finalFlush`, no `Close`, no
`rwPool.Put`, no further `Request.Reset`). -/
theorem hijack_returns_immediately (h : ProtocolHttp.HttpHandler) (env : Env) (pctx : Context)
    (n fuel : Nat) (hlb : env.loopsBack n) (hok : env.resetErr n = GoError.nil)
    (hhj : env.ishjack n = true) (hfuel : n < fuel) :
    (ProtocolHttp.EudoreConn h env pctx fuel =
        ({ trace := Event.poolGet env.pooled ::
              (ProtocolHttp.EudoreConn.keptAlive h env pctx 0 n ++
                [Event.setReadDeadline (env.nowRead n + h.ReadTimeout),
                 Event.requestReset env.pooled n,
                 Event.responseReset env.pooled,
                 Event.withCancel pctx (Context.withCancel pctx n),
                 Event.setWriteDeadline (env.nowWrite n + h.WriteTimeout),
                 Event.handler (Context.withCancel pctx n) env.pooled n]),
           cancel := some (Context.withCancel pctx n) }, Exit.hijacked)) ∧
    (ServerEudore.HTTPHandler env pctx fuel =
        ({ trace := Event.poolGet env.pooled ::
              (ServerEudore.HTTPHandler.keptAlive env pctx 0 n ++
                [Event.requestReset env.pooled n,
                 Event.responseReset env.pooled,
                 Event.withCancel pctx (Context.withCancel pctx n),
                 Event.handler (Context.withCancel pctx n) env.pooled n]),
           cancel := some (Context.withCancel pctx n) }, Exit.hijacked)) := by
  obtain ⟨m, rfl⟩ : ∃ m, fuel = n + (m + 1) := ⟨fuel - n - 1, by omega⟩
  constructor
  · unfold ProtocolHttp.EudoreConn
    dsimp only
    rw [ProtocolHttp.EudoreConn.loop_reach h env pctx n (m + 1) _ hlb,
      ProtocolHttp.EudoreConn.loop]
    simp [hok, hhj, Conn.emit]
  · unfold ServerEudore.HTTPHandler
    dsimp only
    rw [ServerEudore.HTTPHandler.serve_reach env pctx n (m + 1) _ hlb,
      ServerEudore.HTTPHandler.loop]
    simp [hok, hhj, Conn.emit]

theorem ProtocolHttp.EudoreConn.mem_keptAlive (h : ProtocolHttp.HttpHandler) (env : Env)
    (pctx : Context) (e : Event) : ∀ (k i : Nat),
    e ∈ ProtocolHttp.EudoreConn.keptAlive h env pctx i k ↔
      ∃ j, i ≤ j ∧ j < i + k ∧ e ∈ ProtocolHttp.EudoreConn.servedEvents h env pctx j := by
  intro k
  induction k with
  | zero =>
    intro i
    simp only [ProtocolHttp.EudoreConn.keptAlive, List.not_mem_nil, false_iff]
    rintro ⟨j, h1, h2, _⟩
    omega
  | succ k ih =>
    intro i
    rw [ProtocolHttp.EudoreConn.keptAlive, List.mem_append, ih (i + 1)]
    constructor
    · rintro (h1 | ⟨j, h1, h2, h3⟩)
      · exact ⟨i, le_refl _, by omega, h1⟩
      · exact ⟨j, by omega, by omega, h3⟩
    · rintro ⟨j, h1, h2, h3⟩
      by_cases hj : j = i
      · subst hj
        exact Or.inl h3
      · exact Or.inr ⟨j, by omega, by omega, h3⟩

theorem ProtocolHttp.EudoreConn.handlerCall_keptAlive (h : ProtocolHttp.HttpHandler) (env : Env)
    (pctx : Context) : ∀ (k i : Nat),
    (ProtocolHttp.EudoreConn.keptAlive h env pctx i k).filterMap Event.handlerCall =
      List.range' i k := by
  intro k
  induction k with
  | zero => intro i; rfl
  | succ k ih =>
    intro i
    rw [ProtocolHttp.EudoreConn.keptAlive, List.filterMap_append, ih (i + 1), List.range'_succ]
    simp [ProtocolHttp.EudoreConn.servedEvents, ProtocolHttp.EudoreConn.dispatchEvents,
      Event.handlerCall, List.filterMap_cons]

theorem ProtocolHttp.EudoreConn.loop_trace_extends (h : ProtocolHttp.HttpHandler) (env : Env)
    (pctx : Context) : ∀ (fuel i : Nat) (s : Conn),
    ∃ rest, (ProtocolHttp.EudoreConn.loop h env pctx fuel i s).1.trace = s.trace ++ rest := by
  intro fuel
  induction fuel with
  | zero => intro i s; exact ⟨[], by simp [ProtocolHttp.EudoreConn.loop]⟩
  | succ fuel ih =>
    intro i s
    rw [ProtocolHttp.EudoreConn.loop]
    dsimp only
    split_ifs with h1 h2 h3 h4
    · exact ⟨_, by simp only [Conn.emit, List.append_assoc]; rfl⟩
    · exact ⟨_, by simp only [Conn.emit, List.append_assoc]; rfl⟩
    · exact ⟨_, by simp only [Conn.emit, List.append_assoc]; rfl⟩
    · exact ⟨_, by simp only [Conn.emit, List.append_assoc]; rfl⟩
    · obtain ⟨rest, hrest⟩ := ih (i + 1) _
      rw [hrest]
      exact ⟨_, by simp only [Conn.emit, List.append_assoc]; rfl⟩

/-- When the request of iteration `i` parses, the calls of that iteration start
with the six calls up to the handler. -/
theorem ProtocolHttp.EudoreConn.loop_dispatch (h : ProtocolHttp.HttpHandler) (env : Env)
    (pctx : Context) (m i : Nat) (s : Conn) (hok : env.resetErr i = GoError.nil) :
    ∃ rest, (ProtocolHttp.EudoreConn.loop h env pctx (m + 1) i s).1.trace =
      s.trace ++ (ProtocolHttp.EudoreConn.dispatchEvents h env pctx i ++ rest) := by
  rw [ProtocolHttp.EudoreConn.loop]
  simp only [hok, ne_eq, not_true_eq_false, if_false]
  split_ifs with h3 h4
  · exact ⟨[], by simp [Conn.emit, ProtocolHttp.EudoreConn.dispatchEvents]⟩
  · exact ⟨[Event.finalFlush env.pooled],
      by simp [Conn.emit, ProtocolHttp.EudoreConn.dispatchEvents]⟩
  · exact (ProtocolHttp.EudoreConn.loop_trace_extends h env pctx m (i + 1) _).elim
      (fun rest hrest => ⟨Event.finalFlush env.pooled :: rest, by
        rw [hrest]
        simp [Conn.emit, ProtocolHttp.EudoreConn.dispatchEvents]⟩)

/-- The calls of `EudoreConn` are those of its loop, followed by whatever the
driver does after the loop. -/
theorem ProtocolHttp.EudoreConn_trace (h : ProtocolHttp.HttpHandler) (env : Env)
    (pctx : Context) (fuel : Nat) :
    ∃ rest, (ProtocolHttp.EudoreConn h env pctx fuel).1.trace =
      (ProtocolHttp.EudoreConn.loop h env pctx fuel 0
        { trace := [Event.poolGet env.pooled], cancel := none }).1.trace ++ rest := by
  unfold ProtocolHttp.EudoreConn
  dsimp only
  generalize ProtocolHttp.EudoreConn.loop h env pctx fuel 0
    { trace := [Event.poolGet env.pooled], cancel := none } = r
  obtain ⟨s, x⟩ := r
  cases x
  · exact ⟨[], by simp⟩
  · exact ⟨[Event.close, Event.poolPut env.pooled], by simp [Conn.emit]⟩
  · exact ⟨[], by simp⟩

theorem ProtocolHttp.EudoreConn.loop_begin (h : ProtocolHttp.HttpHandler) (env : Env)
    (pctx : Context) (m i : Nat) (s : Conn) :
    ∃ rest, (ProtocolHttp.EudoreConn.loop h env pctx (m + 1) i s).1.trace =
      s.trace ++ (Event.setReadDeadline (env.nowRead i + h.ReadTimeout) ::
        Event.requestReset env.pooled i :: rest) := by
  rw [ProtocolHttp.EudoreConn.loop]
  dsimp only
  split_ifs with h1 h2 h3 h4
  · exact ⟨_, by simp only [Conn.emit, List.append_assoc]; rfl⟩
  · exact ⟨[], by simp only [Conn.emit, List.append_assoc]; rfl⟩
  · exact ⟨_, by simp only [Conn.emit, List.append_assoc]; rfl⟩
  · exact ⟨_, by simp only [Conn.emit, List.append_assoc]; rfl⟩
  · exact (ProtocolHttp.EudoreConn.loop_trace_extends h env pctx m (i + 1) _).elim
      (fun rest hrest => ⟨_, by
        rw [hrest]
        simp only [Conn.emit, List.append_assoc]
        rfl⟩)

theorem ProtocolHttp.EudoreConn.isPrint_keptAlive (h : ProtocolHttp.HttpHandler) (env : Env)
    (pctx : Context) (i k : Nat) :
    (ProtocolHttp.EudoreConn.keptAlive h env pctx i k).countP Event.isPrint = 0 := by
  rw [List.countP_eq_zero]
  intro e he
  rw [ProtocolHttp.EudoreConn.mem_keptAlive] at he
  obtain ⟨j, _, _, hj⟩ := he
  simp only [ProtocolHttp.EudoreConn.servedEvents, ProtocolHttp.EudoreConn.dispatchEvents,
    List.mem_append, List.mem_cons, List.mem_singleton, List.not_mem_nil, or_false] at hj
  rcases hj with (hj | hj | hj | hj | hj | hj) | hj <;> subst hj <;> simp [Event.isPrint]

theorem ProtocolHttp.EudoreConn.isServe_keptAlive (h : ProtocolHttp.HttpHandler) (env : Env)
    (pctx : Context) : ∀ (k i : Nat),
    (ProtocolHttp.EudoreConn.keptAlive h env pctx i k).filter Event.isServe =
      (List.range' i k).flatMap (fun j =>
        [Event.requestReset env.pooled j,
         Event.handler (Context.withCancel pctx j) env.pooled j,
         Event.finalFlush env.pooled]) := by
  intro k
  induction k with
  | zero => intro i; rfl
  | succ k ih =>
    intro i
    rw [ProtocolHttp.EudoreConn.keptAlive, List.filter_append, ih (i + 1), List.range'_succ]
    simp [ProtocolHttp.EudoreConn.servedEvents, ProtocolHttp.EudoreConn.dispatchEvents,
      Event.isServe, List.filter_cons]

theorem lastDerived_append (t : List Event) (e : Event) :
    lastDerived (t ++ [e]) =
      (match e with
      | Event.withCancel _ child => some child
      | _ => lastDerived t) := by
  simp only [lastDerived, List.foldl_append, List.foldl_cons, List.foldl_nil]

theorem ProtocolHttp.EudoreConn.loop_sound (h : ProtocolHttp.HttpHandler) (env : Env)
    (pctx : Context) : ∀ (fuel i : Nat) (s : Conn),
    (∀ e ∈ s.trace, Event.sound env pctx e = true) → s.cancel = lastDerived s.trace →
    (∀ e ∈ (ProtocolHttp.EudoreConn.loop h env pctx fuel i s).1.trace,
        Event.sound env pctx e = true) ∧
      (ProtocolHttp.EudoreConn.loop h env pctx fuel i s).1.cancel =
        lastDerived (ProtocolHttp.EudoreConn.loop h env pctx fuel i s).1.trace := by
  intro fuel
  induction fuel with
  | zero => intro i s hs hc; exact ⟨hs, hc⟩
  | succ fuel ih =>
    intro i s hs hc
    rw [ProtocolHttp.EudoreConn.loop]
    dsimp only
    split_ifs with h1 h2 h3 h4
    · refine ⟨?_, ?_⟩
      · intro e he
        simp only [Conn.emit, List.mem_append, List.mem_singleton] at he
        rcases he with ((he | he) | he) | he
        · exact hs e he
        all_goals subst he; rfl
      · simp only [Conn.emit, lastDerived_append]
        exact hc
    · refine ⟨?_, ?_⟩
      · intro e he
        simp only [Conn.emit, List.mem_append, List.mem_singleton] at he
        rcases he with (he | he) | he
        · exact hs e he
        all_goals subst he; rfl
      · simp only [Conn.emit, lastDerived_append]
        exact hc
    · have hok : env.resetErr i = GoError.nil := not_not.mp h1
      refine ⟨?_, ?_⟩
      · intro e he
        simp only [Conn.emit, List.mem_append, List.mem_singleton] at he
        rcases he with (((((he | he) | he) | he) | he) | he) | he
        · exact hs e he
        all_goals subst he; simp [Event.sound, hok]
      · simp only [Conn.emit, lastDerived_append]
    · have hok : env.resetErr i = GoError.nil := not_not.mp h1
      refine ⟨?_, ?_⟩
      · intro e he
        simp only [Conn.emit, List.mem_append, List.mem_singleton] at he
        rcases he with ((((((he | he) | he) | he) | he) | he) | he) | he
        · exact hs e he
        all_goals subst he; simp [Event.sound, hok]
      · simp only [Conn.emit, lastDerived_append]
    · have hok : env.resetErr i = GoError.nil := not_not.mp h1
      apply ih
      · intro e he
        simp only [Conn.emit, List.mem_append, List.mem_singleton] at he
        rcases he with ((((((he | he) | he) | he) | he) | he) | he) | he
        · exact hs e he
        all_goals subst he; simp [Event.sound, hok]
      · simp only [Conn.emit, lastDerived_append]

/-- Every call `EudoreConn` makes is sound, and `resp.cancel` holds the cancel
function of the context derived last. -/
theorem ProtocolHttp.EudoreConn_sound (h : ProtocolHttp.HttpHandler) (env : Env)
    (pctx : Context) (fuel : Nat) :
    (∀ e ∈ (ProtocolHttp.EudoreConn h env pctx fuel).1.trace,
      Event.sound env pctx e = true) ∧
      (ProtocolHttp.EudoreConn h env pctx fuel).1.cancel =
        lastDerived (ProtocolHttp.EudoreConn h env pctx fuel).1.trace := by
  have hinv := ProtocolHttp.EudoreConn.loop_sound h env pctx fuel 0
    { trace := [Event.poolGet env.pooled], cancel := none }
    (by intro e he; simp only [List.mem_singleton] at he; subst he; rfl) rfl
  unfold ProtocolHttp.EudoreConn
  dsimp only
  revert hinv
  generalize ProtocolHttp.EudoreConn.loop h env pctx fuel 0
    { trace := [Event.poolGet env.pooled], cancel := none } = r
  obtain ⟨s, x⟩ := r
  intro hinv
  cases x
  · exact hinv
  · refine ⟨?_, ?_⟩
    · intro e he
      simp only [Conn.emit, List.mem_append, List.mem_singleton] at he
      rcases he with (he | he) | he
      · exact hinv.1 e he
      all_goals subst he; rfl
    · simp only [Conn.emit, lastDerived_append]
      exact hinv.2
  · exact hinv

/-- C3: `isNotCommonNetReadError` (the same function in both packages) is false
exactly for `io.EOF`, for a `net.Error` whose `Timeout()` is true and for a
`*net.OpError` whose `Op` is `"read"`; it is true for `ErrLineInvalid`. -/
theorem isNotCommonNetReadError_false_iff (err : GoError) :
    (ProtocolHttp.isNotCommonNetReadError err = false ↔
      (err = GoError.EOF ∨ err.asNetError = some true ∨ err.asOpError = some "read")) ∧
    (ServerEudore.isNotCommonNetReadError err = false ↔
      (err = GoError.EOF ∨ err.asNetError = some true ∨ err.asOpError = some "read")) ∧
    ProtocolHttp.isNotCommonNetReadError GoError.ErrLineInvalid = true ∧
    ServerEudore.isNotCommonNetReadError GoError.ErrLineInvalid = true := by
  refine ⟨?_, ?_, by decide, by decide⟩
  · cases err with
    | opError op timeout =>
      cases timeout <;>
        simp [ProtocolHttp.isNotCommonNetReadError, GoError.asNetError, GoError.asOpError]
    | _ => simp [ProtocolHttp.isNotCommonNetReadError, GoError.asNetError, GoError.asOpError]
  · cases err with
    | opError op timeout =>
      cases timeout <;>
        simp [ServerEudore.isNotCommonNetReadError, GoError.asNetError, GoError.asOpError]
    | _ => simp [ServerEudore.isNotCommonNetReadError, GoError.asNetError, GoError.asOpError]

/-- C2: when iteration `n` of `EudoreConn` is reached and its `Request.Reset`
returns an error, the calls of that iteration are the read deadline, the
`Request.Reset`, then `Print` once if `isNotCommonNetReadError` holds of the
error and not otherwise; the driver then closes the connection, puts the
state back into `rwPool` and returns.  The handler is not invoked for that
request, and `Print` is called nowhere else on the connection. -/
theorem reset_error_closes (h : ProtocolHttp.HttpHandler) (env : Env) (pctx : Context)
    (n fuel : Nat) (hlb : env.loopsBack n) (herr : env.resetErr n ≠ GoError.nil)
    (hfuel : n < fuel) :
    ProtocolHttp.EudoreConn h env pctx fuel =
        ({ trace := Event.poolGet env.pooled ::
              (ProtocolHttp.EudoreConn.keptAlive h env pctx 0 n ++
                ([Event.setReadDeadline (env.nowRead n + h.ReadTimeout),
                  Event.requestReset env.pooled n] ++
                  ((if ProtocolHttp.isNotCommonNetReadError (env.resetErr n) = true
                      then [Event.print (env.resetErr n)] else []) ++
                    [Event.close, Event.poolPut env.pooled]))),
           cancel := lastCancel pctx none 0 n }, Exit.closed) ∧
    (ProtocolHttp.EudoreConn h env pctx fuel).1.trace.countP Event.isPrint =
        (if ProtocolHttp.isNotCommonNetReadError (env.resetErr n) = true then 1 else 0) ∧
    (∀ ctx, Event.handler ctx env.pooled n ∉
        (ProtocolHttp.EudoreConn h env pctx fuel).1.trace) := by
  obtain ⟨m, rfl⟩ : ∃ m, fuel = n + (m + 1) := ⟨fuel - n - 1, by omega⟩
  have heq : ProtocolHttp.EudoreConn h env pctx (n + (m + 1)) =
        ({ trace := Event.poolGet env.pooled ::
              (ProtocolHttp.EudoreConn.keptAlive h env pctx 0 n ++
                ([Event.setReadDeadline (env.nowRead n + h.ReadTimeout),
                  Event.requestReset env.pooled n] ++
                  ((if ProtocolHttp.isNotCommonNetReadError (env.resetErr n) = true
                      then [Event.print (env.resetErr n)] else []) ++
                    [Event.close, Event.poolPut env.pooled]))),
           cancel := lastCancel pctx none 0 n }, Exit.closed) := by
    unfold ProtocolHttp.EudoreConn
    dsimp only
    rw [ProtocolHttp.EudoreConn.loop_reach h env pctx n (m + 1) _ hlb,
      ProtocolHttp.EudoreConn.loop]
    by_cases hp : ProtocolHttp.isNotCommonNetReadError (env.resetErr n) = true <;>
      simp [herr, hp, Conn.emit]
  refine ⟨heq, ?_, ?_⟩
  · rw [heq]
    simp only [List.countP_cons, List.countP_append,
      ProtocolHttp.EudoreConn.isPrint_keptAlive, Event.isPrint]
    by_cases hp : ProtocolHttp.isNotCommonNetReadError (env.resetErr n) = true <;>
      simp [hp, Event.isPrint]
  · intro ctx
    rw [heq]
    simp only [List.mem_cons, List.mem_append, ProtocolHttp.EudoreConn.mem_keptAlive,
      ProtocolHttp.EudoreConn.servedEvents, ProtocolHttp.EudoreConn.dispatchEvents]
    by_cases hp : ProtocolHttp.isNotCommonNetReadError (env.resetErr n) = true <;> simp [hp]

/-- C4: when the first `N` requests of a connection parse, are not hijacked and
keep the connection alive, `EudoreConn` serves them one after the other on the
same pooled object: its calls up to the return of the next `Request.Reset` are
the object from the pool, then for each request in arrival order the calls of
one iteration (`Request.Reset`, the handler, `finalFlush`, in that order),
with no `Close` and no `rwPool.Put` among them. -/
theorem keep_alive_serves_in_order (h : ProtocolHttp.HttpHandler) (env : Env) (pctx : Context)
    (N fuel : Nat) (hlb : env.loopsBack N) (hfuel : N < fuel) :
    (∃ rest, (ProtocolHttp.EudoreConn h env pctx fuel).1.trace =
        (Event.poolGet env.pooled :: ProtocolHttp.EudoreConn.keptAlive h env pctx 0 N) ++
          (Event.setReadDeadline (env.nowRead N + h.ReadTimeout) ::
            Event.requestReset env.pooled N :: rest)) ∧
    (ProtocolHttp.EudoreConn.keptAlive h env pctx 0 N).filterMap Event.handlerCall =
        List.range N ∧
    (ProtocolHttp.EudoreConn.keptAlive h env pctx 0 N).filter Event.isServe =
        (List.range N).flatMap (fun j =>
          [Event.requestReset env.pooled j,
           Event.handler (Context.withCancel pctx j) env.pooled j,
           Event.finalFlush env.pooled]) ∧
    Event.close ∉ ProtocolHttp.EudoreConn.keptAlive h env pctx 0 N ∧
    (∀ r, Event.poolPut r ∉ ProtocolHttp.EudoreConn.keptAlive h env pctx 0 N) ∧
    (∀ e ∈ Event.poolGet env.pooled :: ProtocolHttp.EudoreConn.keptAlive h env pctx 0 N,
        e.resp = none ∨ e.resp = some env.pooled) := by
  obtain ⟨m, rfl⟩ : ∃ m, fuel = N + (m + 1) := ⟨fuel - N - 1, by omega⟩
  refine ⟨?_, ?_, ?_, ?_, ?_, ?_⟩
  · obtain ⟨tail, htail⟩ := ProtocolHttp.EudoreConn_trace h env pctx (N + (m + 1))
    rw [htail, ProtocolHttp.EudoreConn.loop_reach h env pctx N (m + 1) _ hlb]
    obtain ⟨rest, hrest⟩ := ProtocolHttp.EudoreConn.loop_begin h env pctx m N
      { trace := [Event.poolGet env.pooled] ++ ProtocolHttp.EudoreConn.keptAlive h env pctx 0 N,
        cancel := lastCancel pctx none 0 N }
    refine ⟨rest ++ tail, ?_⟩
    rw [hrest]
    simp
  · rw [ProtocolHttp.EudoreConn.handlerCall_keptAlive, List.range_eq_range']
  · rw [ProtocolHttp.EudoreConn.isServe_keptAlive, List.range_eq_range']
  · rw [ProtocolHttp.EudoreConn.mem_keptAlive]
    rintro ⟨j, _, _, hj⟩
    simp [ProtocolHttp.EudoreConn.servedEvents, ProtocolHttp.EudoreConn.dispatchEvents] at hj
  · intro r
    rw [ProtocolHttp.EudoreConn.mem_keptAlive]
    rintro ⟨j, _, _, hj⟩
    simp [ProtocolHttp.EudoreConn.servedEvents, ProtocolHttp.EudoreConn.dispatchEvents] at hj
  · intro e he
    rw [List.mem_cons, ProtocolHttp.EudoreConn.mem_keptAlive] at he
    rcases he with he | ⟨j, _, _, hj⟩
    · subst he
      exact Or.inr rfl
    · simp only [ProtocolHttp.EudoreConn.servedEvents, ProtocolHttp.EudoreConn.dispatchEvents,
        List.mem_append, List.mem_cons, List.mem_singleton, List.not_mem_nil, or_false] at hj
      rcases hj with (hj | hj | hj | hj | hj | hj) | hj <;> subst hj <;> simp [Event.resp]

/-- C5: when iteration `n` of `EudoreConn` is reached, its request parses with
`isnotkeep` set and its handler does not hijack, the driver calls `finalFlush`
once after the handler, then closes the connection once, then puts the state
back into `rwPool` once, and returns: these are its last calls. -/
theorem non_keep_alive_closes (h : ProtocolHttp.HttpHandler) (env : Env) (pctx : Context)
    (n fuel : Nat) (hlb : env.loopsBack n) (hok : env.resetErr n = GoError.nil)
    (hhj : env.ishjack n = false) (hnk : env.isnotkeep n = true) (hfuel : n < fuel) :
    ProtocolHttp.EudoreConn h env pctx fuel =
        ({ trace := Event.poolGet env.pooled ::
              (ProtocolHttp.EudoreConn.keptAlive h env pctx 0 n ++
                [Event.setReadDeadline (env.nowRead n + h.ReadTimeout),
                 Event.requestReset env.pooled n,
                 Event.responseReset env.pooled,
                 Event.withCancel pctx (Context.withCancel pctx n),
                 Event.setWriteDeadline (env.nowWrite n + h.WriteTimeout),
                 Event.handler (Context.withCancel pctx n) env.pooled n,
                 Event.finalFlush env.pooled,
                 Event.close,
                 Event.poolPut env.pooled]),
           cancel := some (Context.withCancel pctx n) }, Exit.closed) := by
  obtain ⟨m, rfl⟩ : ∃ m, fuel = n + (m + 1) := ⟨fuel - n - 1, by omega⟩
  unfold ProtocolHttp.EudoreConn
  dsimp only
  rw [ProtocolHttp.EudoreConn.loop_reach h env pctx n (m + 1) _ hlb,
    ProtocolHttp.EudoreConn.loop]
  simp [hok, hhj, hnk, Conn.emit]

/-- C7: when iteration `n` of `EudoreConn` is reached and its request parses,
the calls of the iteration are, in this order, the read deadline at
now + ReadTimeout, `Request.Reset`, `Response.Reset`, the derivation of a
cancellable context, the write deadline at now + WriteTimeout, and the
handler; and on any run a handler invocation is for a request whose
`Request.Reset` returned no error. -/
theorem iteration_steps_in_order (h : ProtocolHttp.HttpHandler) (env : Env) (pctx : Context)
    (n fuel : Nat) (hlb : env.loopsBack n) (hok : env.resetErr n = GoError.nil)
    (hfuel : n < fuel) :
    (∃ rest, (ProtocolHttp.EudoreConn h env pctx fuel).1.trace =
        (Event.poolGet env.pooled :: ProtocolHttp.EudoreConn.keptAlive h env pctx 0 n) ++
          ([Event.setReadDeadline (env.nowRead n + h.ReadTimeout),
            Event.requestReset env.pooled n,
            Event.responseReset env.pooled,
            Event.withCancel pctx (Context.withCancel pctx n),
            Event.setWriteDeadline (env.nowWrite n + h.WriteTimeout),
            Event.handler (Context.withCancel pctx n) env.pooled n] ++ rest)) ∧
    (∀ ctx r i, Event.handler ctx r i ∈ (ProtocolHttp.EudoreConn h env pctx fuel).1.trace →
        env.resetErr i = GoError.nil) := by
  obtain ⟨m, rfl⟩ : ∃ m, fuel = n + (m + 1) := ⟨fuel - n - 1, by omega⟩
  refine ⟨?_, ?_⟩
  · obtain ⟨tail, htail⟩ := ProtocolHttp.EudoreConn_trace h env pctx (n + (m + 1))
    rw [htail, ProtocolHttp.EudoreConn.loop_reach h env pctx n (m + 1) _ hlb]
    obtain ⟨rest, hrest⟩ := ProtocolHttp.EudoreConn.loop_dispatch h env pctx m n
      { trace := [Event.poolGet env.pooled] ++ ProtocolHttp.EudoreConn.keptAlive h env pctx 0 n,
        cancel := lastCancel pctx none 0 n } hok
    refine ⟨rest ++ tail, ?_⟩
    rw [hrest]
    simp [ProtocolHttp.EudoreConn.dispatchEvents]
  · intro ctx r i hmem
    have := (ProtocolHttp.EudoreConn_sound h env pctx (n + (m + 1))).1 _ hmem
    simp only [Event.sound, Bool.and_eq_true, beq_iff_eq] at this
    exact this.2

/-! ### The statements above on concrete connections -/

theorem hijack_returns_immediately_witness :
    (Env.ofScript 7 [GoError.nil, GoError.nil] [false, true] []).loopsBack 1 ∧
    (Env.ofScript 7 [GoError.nil, GoError.nil] [false, true] []).resetErr 1 = GoError.nil ∧
    (Env.ofScript 7 [GoError.nil, GoError.nil] [false, true] []).ishjack 1 = true ∧
    (ProtocolHttp.EudoreConn ⟨60, 30, 90⟩
        (Env.ofScript 7 [GoError.nil, GoError.nil] [false, true] []) (Context.base 0) 5).2 =
      Exit.hijacked ∧
    (ProtocolHttp.EudoreConn ⟨60, 30, 90⟩
        (Env.ofScript 7 [GoError.nil, GoError.nil] [false, true] []) (Context.base 0) 5).1.trace =
      [Event.poolGet 7,
       Event.setReadDeadline 60, Event.requestReset 7 0, Event.responseReset 7,
       Event.withCancel (Context.base 0) (Context.withCancel (Context.base 0) 0),
       Event.setWriteDeadline 530,
       Event.handler (Context.withCancel (Context.base 0) 0) 7 0, Event.finalFlush 7,
       Event.setReadDeadline 1060, Event.requestReset 7 1, Event.responseReset 7,
       Event.withCancel (Context.base 0) (Context.withCancel (Context.base 0) 1),
       Event.setWriteDeadline 1530,
       Event.handler (Context.withCancel (Context.base 0) 1) 7 1] ∧
    (ServerEudore.HTTPHandler
        (Env.ofScript 7 [GoError.nil, GoError.nil] [false, true] []) (Context.base 0) 5).2 =
      Exit.hijacked :=
  have key := hijack_returns_immediately ⟨60, 30, 90⟩
    (Env.ofScript 7 [GoError.nil, GoError.nil] [false, true] []) (Context.base 0) 1 5
    (by decide) (by decide) (by decide) (by decide)
  ⟨by decide, by decide, by decide, by rw [key.1], by rw [key.1]; decide, by rw [key.2]⟩

theorem reset_error_closes_witness :
    (Env.ofScript 7 [GoError.ErrLineInvalid] [] []).loopsBack 0 ∧
    (Env.ofScript 7 [GoError.ErrLineInvalid] [] []).resetErr 0 = GoError.ErrLineInvalid ∧
    ProtocolHttp.EudoreConn ⟨60, 30, 90⟩ (Env.ofScript 7 [GoError.ErrLineInvalid] [] [])
        (Context.base 0) 1 =
      ({ trace := [Event.poolGet 7, Event.setReadDeadline 60, Event.requestReset 7 0,
                   Event.print GoError.ErrLineInvalid, Event.close, Event.poolPut 7],
         cancel := none }, Exit.closed) :=
  have key := reset_error_closes ⟨60, 30, 90⟩ (Env.ofScript 7 [GoError.ErrLineInvalid] [] [])
    (Context.base 0) 0 1 (by decide) (by decide) (by decide)
  ⟨by decide, by decide, by rw [key.1]; decide⟩

theorem keep_alive_serves_in_order_witness :
    (Env.ofScript 7 [GoError.nil, GoError.nil] [] []).loopsBack 2 ∧
    (ProtocolHttp.EudoreConn.keptAlive ⟨60, 30, 90⟩
        (Env.ofScript 7 [GoError.nil, GoError.nil] [] []) (Context.base 0) 0 2).filterMap
      Event.handlerCall = List.range 2 ∧
    ∃ rest, (ProtocolHttp.EudoreConn ⟨60, 30, 90⟩
        (Env.ofScript 7 [GoError.nil, GoError.nil] [] []) (Context.base 0) 3).1.trace =
      (Event.poolGet 7 :: ProtocolHttp.EudoreConn.keptAlive ⟨60, 30, 90⟩
          (Env.ofScript 7 [GoError.nil, GoError.nil] [] []) (Context.base 0) 0 2) ++
        (Event.setReadDeadline (2000 + 60) :: Event.requestReset 7 2 :: rest) :=
  have key := keep_alive_serves_in_order ⟨60, 30, 90⟩
    (Env.ofScript 7 [GoError.nil, GoError.nil] [] []) (Context.base 0) 2 3
    (by decide) (by decide)
  ⟨by decide, key.2.1, key.1⟩

theorem non_keep_alive_closes_witness :
    (Env.ofScript 7 [GoError.nil] [false] [true]).loopsBack 0 ∧
    (Env.ofScript 7 [GoError.nil] [false] [true]).isnotkeep 0 = true ∧
    ProtocolHttp.EudoreConn ⟨60, 30, 90⟩ (Env.ofScript 7 [GoError.nil] [false] [true])
        (Context.base 0) 4 =
      ({ trace := [Event.poolGet 7, Event.setReadDeadline 60, Event.requestReset 7 0,
                   Event.responseReset 7,
                   Event.withCancel (Context.base 0) (Context.withCancel (Context.base 0) 0),
                   Event.setWriteDeadline 530,
                   Event.handler (Context.withCancel (Context.base 0) 0) 7 0,
                   Event.finalFlush 7, Event.close, Event.poolPut 7],
         cancel := some (Context.withCancel (Context.base 0) 0) }, Exit.closed) :=
  have key := non_keep_alive_closes ⟨60, 30, 90⟩ (Env.ofScript 7 [GoError.nil] [false] [true])
    (Context.base 0) 0 4 (by decide) (by decide) (by decide) (by decide) (by decide)
  ⟨by decide, by decide, by rw [key]; decide⟩

theorem iteration_steps_in_order_witness :
    (Env.ofScript 7 [GoError.nil, GoError.nil] [] []).loopsBack 1 ∧
    (Env.ofScript 7 [GoError.nil, GoError.nil] [] []).resetErr 1 = GoError.nil ∧
    ∃ rest, (ProtocolHttp.EudoreConn ⟨60, 30, 90⟩
        (Env.ofScript 7 [GoError.nil, GoError.nil] [] []) (Context.base 0) 2).1.trace =
      (Event.poolGet 7 :: ProtocolHttp.EudoreConn.keptAlive ⟨60, 30, 90⟩
          (Env.ofScript 7 [GoError.nil, GoError.nil] [] []) (Context.base 0) 0 1) ++
        ([Event.setReadDeadline (1000 + 60), Event.requestReset 7 1, Event.responseReset 7,
          Event.withCancel (Context.base 0) (Context.withCancel (Context.base 0) 1),
          Event.setWriteDeadline (1500 + 30),
          Event.handler (Context.withCancel (Context.base 0) 1) 7 1] ++ rest) :=
  have key := iteration_steps_in_order ⟨60, 30, 90⟩
    (Env.ofScript 7 [GoError.nil, GoError.nil] [] []) (Context.base 0) 1 2
    (by decide) (by decide) (by decide)
  ⟨by decide, by decide, key.1⟩

/-! ## The test response writer -/

namespace Httptest

theorem take_truncated (str : Bytes) :
    (if str.length > 512 then str.take 512 else str).take 512 = str.take 512 := by
  split_ifs with hlen
  · rw [List.take_take, Nat.min_self]
  · rfl

theorem writeHeader_HeaderMap (sniff : Bytes → String) (rw : ResponseWriterTest)
    (b : Option Bytes) (str : Bytes) :
    (rw.writeHeader sniff b str).HeaderMap =
      if rw.wroteHeader = true then rw.HeaderMap
      else if rw.Header.1.Get "Content-Type" = "" ∧ rw.Header.1.Get "Transfer-Encoding" = "" then
        some (rw.Header.1.Set "Content-Type"
          (sniff ((match b with
            | none => if str.length > 512 then str.take 512 else str
            | some b => b).take 512)))
      else rw.HeaderMap := by
  unfold ResponseWriterTest.writeHeader
  by_cases hw : rw.wroteHeader = true
  · simp [hw]
  · simp only [hw, if_false, Bool.false_eq_true]
    by_cases hct : rw.Header.1.Get "Content-Type" = ""
    · by_cases hte : rw.Header.1.Get "Transfer-Encoding" = ""
      · simp only [hct, hte, and_self, if_true, bne_self_eq_false, Bool.not_false, Bool.and_self,
          DetectContentType]
      · have hne : (rw.Header.1.Get "Transfer-Encoding" != "") = true := by simpa using hte
        simp only [hct, hte, and_false, if_false, hne, Bool.not_true, Bool.and_false,
          Bool.false_eq_true]
        cases hm : rw.HeaderMap with
        | none => simp [ResponseWriterTest.Header, hm, Header.Get, Header.index] at hte
        | some m => simp [ResponseWriterTest.Header, hm]
    · have hne : (rw.Header.1.Get "Content-Type" != "") = true := by simpa using hct
      simp only [hct, false_and, if_false, hne, Bool.not_true, Bool.false_and,
        Bool.false_eq_true]
      cases hm : rw.HeaderMap with
      | none => simp [ResponseWriterTest.Header, hm, Header.Get, Header.index] at hct
      | some m => simp [ResponseWriterTest.Header, hm]

theorem Write_HeaderMap (sniff : Bytes → String) (rw : ResponseWriterTest) (buf : Bytes) :
    (rw.Write sniff buf).1.HeaderMap = (rw.writeHeader sniff (some buf) []).HeaderMap := by
  unfold ResponseWriterTest.Write
  dsimp only
  cases (rw.writeHeader sniff (some buf) []).Body <;> rfl

theorem WriteString_HeaderMap (sniff : Bytes → String) (rw : ResponseWriterTest) (str : Bytes) :
    (rw.WriteString sniff str).1.HeaderMap = (rw.writeHeader sniff none str).HeaderMap := by
  unfold ResponseWriterTest.WriteString
  dsimp only
  cases (rw.writeHeader sniff none str).Body <;> rfl

theorem WriteHeader_wroteHeader (rw : ResponseWriterTest) (code : Int) :
    (rw.WriteHeader code).wroteHeader = true := by
  unfold ResponseWriterTest.WriteHeader
  by_cases hw : rw.wroteHeader = true
  · simp [hw]
  · simp only [hw, if_false, Bool.false_eq_true]
    cases rw.HeaderMap <;> rfl

/-- C8 on the code: after `WriteHeader(200)` has committed the headers of a new
response, a `Set` made through the map `Header()` returns is reported by
`HeaderMap` (what `CheckHeader` and `Out` read) although the snapshot taken at
commit time does not have it; and a body write commits nothing: after `Write`
the flag `wroteHeader` is still false and no snapshot exists. -/
theorem header_mutation_after_commit_reported :
    (((NewResponseWriterTest ⟨[]⟩ ⟨"GET", "/", "a_test.go", 1⟩).WriteHeader 200).mutateHeader
        (fun m => m.Set "X-Late" "1")).reportedHeader "X-Late" = "1" ∧
    (((NewResponseWriterTest ⟨[]⟩ ⟨"GET", "/", "a_test.go", 1⟩).WriteHeader 200).mutateHeader
        (fun m => m.Set "X-Late" "1")).snapHeader = some [] ∧
    ((NewResponseWriterTest ⟨[]⟩ ⟨"GET", "/", "a_test.go", 1⟩).Write sniffDemo
        [104, 105]).1.wroteHeader = false ∧
    ((NewResponseWriterTest ⟨[]⟩ ⟨"GET", "/", "a_test.go", 1⟩).Write sniffDemo
        [104, 105]).1.snapHeader = none ∧
    ((((NewResponseWriterTest ⟨[]⟩ ⟨"GET", "/", "a_test.go", 1⟩).Write sniffDemo
        [104, 105]).1.mutateHeader (fun m => m.Set "X-Late" "1")).reportedHeader "X-Late" = "1") := by
  decide

/-- C9 as stated fails: a body write that follows `WriteHeader` detects no
content type (the headers stay without `Content-Type`), while the same write
on a new response sets it. -/
theorem content_type_after_WriteHeader_refuted :
    (((NewResponseWriterTest ⟨[]⟩ ⟨"GET", "/", "a_test.go", 1⟩).WriteHeader 200).Write sniffDemo
        [60, 104, 116, 109, 108, 62]).1.HeaderMap = some [] ∧
    (((NewResponseWriterTest ⟨[]⟩ ⟨"GET", "/", "a_test.go", 1⟩).WriteHeader 200).WriteString
        sniffDemo [60, 104, 116, 109, 108, 62]).1.HeaderMap = some [] ∧
    ((NewResponseWriterTest ⟨[]⟩ ⟨"GET", "/", "a_test.go", 1⟩).Write sniffDemo
        [60, 104, 116, 109, 108, 62]).1.HeaderMap =
      some [("Content-Type", ["text/html; charset=utf-8"])] := by
  decide

/-- C9, as the code has it: a body write (`Write` or `WriteString`) made while
the headers are not committed sets `Content-Type` to the type detected from
the first 512 bytes of the written data when `Get` reads `""` for both
`Content-Type` and `Transfer-Encoding`, and leaves the headers as they are
when either reads a value; a body write made after `WriteHeader` leaves the
headers as they are. -/
theorem body_write_detects_content_type (sniff : Bytes → String) (rw : ResponseWriterTest)
    (data : Bytes) (code : Int) :
    ((rw.Write sniff data).1.HeaderMap =
      if rw.wroteHeader = true then rw.HeaderMap
      else if rw.Header.1.Get "Content-Type" = "" ∧ rw.Header.1.Get "Transfer-Encoding" = "" then
        some (rw.Header.1.Set "Content-Type" (sniff (data.take 512)))
      else rw.HeaderMap) ∧
    ((rw.WriteString sniff data).1.HeaderMap =
      if rw.wroteHeader = true then rw.HeaderMap
      else if rw.Header.1.Get "Content-Type" = "" ∧ rw.Header.1.Get "Transfer-Encoding" = "" then
        some (rw.Header.1.Set "Content-Type" (sniff (data.take 512)))
      else rw.HeaderMap) ∧
    ((rw.WriteHeader code).Write sniff data).1.HeaderMap = (rw.WriteHeader code).HeaderMap ∧
    ((rw.WriteHeader code).WriteString sniff data).1.HeaderMap =
      (rw.WriteHeader code).HeaderMap := by
  refine ⟨?_, ?_, ?_, ?_⟩
  · rw [Write_HeaderMap, writeHeader_HeaderMap]
  · rw [WriteString_HeaderMap, writeHeader_HeaderMap]
    simp only [take_truncated]
  · rw [Write_HeaderMap, writeHeader_HeaderMap, if_pos (WriteHeader_wroteHeader rw code)]
  · rw [WriteString_HeaderMap, writeHeader_HeaderMap, if_pos (WriteHeader_wroteHeader rw code)]

/-- C10 on the code: a body write does not fix the status code; after
`Write` on a new response, `WriteHeader(404)` still changes `Status()` from
200 to 404. -/
theorem status_not_fixed_by_body_write :
    ((NewResponseWriterTest ⟨[]⟩ ⟨"GET", "/", "a_test.go", 1⟩).Write sniffDemo
        [104, 105]).1.Status = 200 ∧
    (((NewResponseWriterTest ⟨[]⟩ ⟨"GET", "/", "a_test.go", 1⟩).Write sniffDemo
        [104, 105]).1.WriteHeader 404).Status = 404 ∧
    (((NewResponseWriterTest ⟨[]⟩ ⟨"GET", "/", "a_test.go", 1⟩).WriteString sniffDemo
        [104, 105]).1.WriteHeader 404).Status = 404 := by
  decide

end Httptest

end Eudore

namespace Eudore

namespace Httptest

theorem Flush_of_wroteHeader (rw : ResponseWriterTest) (hw : rw.wroteHeader = true) :
    rw.Flush = { rw with Flushed := true } := by
  simp [ResponseWriterTest.Flush, hw]

theorem Flush_of_not_wroteHeader (rw : ResponseWriterTest) (hw : rw.wroteHeader = false) :
    rw.Flush = { rw.WriteHeader 200 with Flushed := true } := by
  simp [ResponseWriterTest.Flush, hw]

/-- C11: `Flush` sets `Flushed`; when the headers were not written it is
`WriteHeader(200)` followed by setting `Flushed`, when they were written it
changes `Flushed` only; a second `Flush` changes nothing. -/
theorem Flush_effect (rw : ResponseWriterTest) :
    rw.Flush.Flushed = true ∧
    (rw.wroteHeader = false → rw.Flush = { rw.WriteHeader 200 with Flushed := true }) ∧
    (rw.wroteHeader = true → rw.Flush = { rw with Flushed := true }) ∧
    (rw.wroteHeader = true → rw.Flush.Code = rw.Code ∧ rw.Flush.HeaderMap = rw.HeaderMap ∧
      rw.Flush.Body = rw.Body ∧ rw.Flush.snapHeader = rw.snapHeader) ∧
    rw.Flush.Flush = rw.Flush := by
  have hf : rw.Flush.Flushed = true := by simp [ResponseWriterTest.Flush]
  refine ⟨hf, Flush_of_not_wroteHeader rw, Flush_of_wroteHeader rw, ?_, ?_⟩
  · intro hw
    rw [Flush_of_wroteHeader rw hw]
    exact ⟨rfl, rfl, rfl, rfl⟩
  · have hw : rw.Flush.wroteHeader = true := by
      cases hb : rw.wroteHeader
      · rw [Flush_of_not_wroteHeader rw hb]
        exact WriteHeader_wroteHeader rw 200
      · rw [Flush_of_wroteHeader rw hb]
        exact hb
    rw [Flush_of_wroteHeader rw.Flush hw]
    revert hf
    generalize rw.Flush = r
    intro hf
    cases r
    simp only at hf
    simp [hf]

theorem Header_snd_Body (rw : ResponseWriterTest) : rw.Header.2.Body = rw.Body := by
  unfold ResponseWriterTest.Header
  cases rw.HeaderMap <;> rfl

theorem writeHeader_Body (sniff : Bytes → String) (rw : ResponseWriterTest) (b : Option Bytes)
    (str : Bytes) : (rw.writeHeader sniff b str).Body = rw.Body := by
  unfold ResponseWriterTest.writeHeader
  dsimp only
  split_ifs <;> simp [Header_snd_Body]

theorem call_Body (sniff : Bytes → String) (rw : ResponseWriterTest) (c : WriteCall)
    (body : Bytes) (hb : rw.Body = some body) :
    (rw.call sniff c).1.Body = some (body ++ c.arg) ∧
      (rw.call sniff c).2 = (c.arg.length, GoError.nil) := by
  cases c with
  | Write buf =>
    have := writeHeader_Body sniff rw (some buf) []
    simp only [ResponseWriterTest.call, ResponseWriterTest.Write, WriteCall.arg]
    rw [hb] at this
    simp [this]
  | WriteString str =>
    have := writeHeader_Body sniff rw none str
    simp only [ResponseWriterTest.call, ResponseWriterTest.WriteString, WriteCall.arg]
    rw [hb] at this
    simp [this]

theorem calls_Body (sniff : Bytes → String) : ∀ (cs : List WriteCall) (rw : ResponseWriterTest)
    (body : Bytes), rw.Body = some body →
    (ResponseWriterTest.calls sniff rw cs).1.Body = some (body ++ (cs.map WriteCall.arg).flatten) ∧
      (ResponseWriterTest.calls sniff rw cs).2 =
        cs.map (fun c => (c.arg.length, GoError.nil)) := by
  intro cs
  induction cs with
  | nil => intro rw body hb; simp [ResponseWriterTest.calls, hb]
  | cons c cs ih =>
    intro rw body hb
    obtain ⟨h1, h2⟩ := call_Body sniff rw c body hb
    obtain ⟨h3, h4⟩ := ih (rw.call sniff c).1 _ h1
    simp only [ResponseWriterTest.calls, h3, h4, h2]
    simp

/-- C12: on a response made by `NewResponseWriterTest`, every call of a
sequence of `Write` and `WriteString` calls returns the length of its argument
and a nil error, `Body` ends as the concatenation of the arguments in call
order, and `Size()` is the sum of their lengths. -/
theorem writes_accumulate_in_Body (sniff : Bytes → String) (client : Client)
    (req : RequestReaderTest) (cs : List WriteCall) :
    (ResponseWriterTest.calls sniff (NewResponseWriterTest client req) cs).2 =
      cs.map (fun c => (c.arg.length, GoError.nil)) ∧
    (ResponseWriterTest.calls sniff (NewResponseWriterTest client req) cs).1.Body =
      some (cs.map WriteCall.arg).flatten ∧
    (ResponseWriterTest.calls sniff (NewResponseWriterTest client req) cs).1.Size =
      some ((cs.map (fun c => c.arg.length)).sum) := by
  obtain ⟨h1, h2⟩ := calls_Body sniff cs (NewResponseWriterTest client req) [] rfl
  refine ⟨h2, by simpa using h1, ?_⟩
  rw [ResponseWriterTest.Size, h1]
  simp [List.length_flatten, Function.comp_def]

/-- C13 on the code: `CheckHeader` compares `h[i]` with `h[i+1]` and not `h[2i]`
with `h[2i+1]`.  On a response with the headers `A: X`, `X: B`, `B: 2` the
call `CheckHeader("B", "2", "A", "X")`, whose two pairs both match, records
an error, and the call `CheckHeader("A", "X", "B", "wrong")`, whose second
pair does not match, records none; with one pair the check is right. -/
theorem CheckHeader_second_pair_misread :
    (checkHeaderDemo.CheckHeader ["B", "2", "A", "X"]).client.Errs.length = 1 ∧
    (checkHeaderDemo.CheckHeader ["A", "X", "B", "wrong"]).client.Errs.length = 0 ∧
    (checkHeaderDemo.CheckHeader ["B", "2"]).client.Errs.length = 0 ∧
    (checkHeaderDemo.CheckHeader ["B", "wrong"]).client.Errs.length = 1 ∧
    checkHeaderDemo.reportedHeader "A" = "X" ∧ checkHeaderDemo.reportedHeader "B" = "2" := by
  decide

end Httptest

end Eudore

namespace Eudore

namespace Controller

theorem splitName_go_skip (name : List Char) : ∀ (w rest : List Char) (i head : Nat)
    (strs : List (List Char)), (∀ c ∈ w, isUpperRune c = false) →
    splitName.go name (w ++ rest) i head strs = splitName.go name rest (i + w.length) head strs := by
  intro w
  induction w with
  | nil => intro rest i head strs _; rfl
  | cons c w ih =>
    intro rest i head strs hw
    have hc : isUpperRune c = false := hw c (List.mem_cons_self _ _)
    rw [List.cons_append, splitName.go]
    simp only [hc, Bool.false_and, Bool.false_eq_true, if_false]
    rw [ih rest (i + 1) head strs (fun d hd => hw d (List.mem_cons_of_mem _ hd))]
    congr 1
    simp only [List.length_cons]
    omega

theorem isWord_cons {c : Char} {cs : List Char} (h : isWord (c :: cs) = true) :
    isUpperRune c = true ∧ ∀ d ∈ cs, isUpperRune d = false := by
  simp only [isWord, Bool.and_eq_true, List.all_eq_true, Bool.not_eq_true'] at h
  exact h

theorem splitName_go_words (name : List Char) : ∀ (ws : List (List Char)) (pending : List Char)
    (head : Nat) (strs : List (List Char)), (∀ w ∈ ws, isWord w = true) →
    name.drop head = pending ++ ws.flatten → pending ≠ [] →
    splitName.go name ws.flatten (head + pending.length) head strs = strs ++ pending :: ws := by
  intro ws
  induction ws with
  | nil =>
    intro pending head strs _ hdrop _
    simp only [List.flatten_nil, List.append_nil] at hdrop ⊢
    rw [splitName.go, hdrop]
  | cons w ws ih =>
    intro pending head strs hws hdrop hne
    have hw : isWord w = true := hws w (List.mem_cons_self _ _)
    cases w with
    | nil => simp [isWord] at hw
    | cons u t =>
      obtain ⟨hu, ht⟩ := isWord_cons hw
      have hpos : head + pending.length ≠ 0 := by
        have : 0 < pending.length := List.length_pos.mpr hne
        omega
      rw [List.flatten_cons, List.cons_append, splitName.go]
      simp only [hu, Bool.true_and, bne_iff_ne, ne_eq, hpos, not_false_eq_true, if_true]
      rw [splitName_go_skip name t ws.flatten _ _ _ ht]
      have htake : (name.drop head).take (head + pending.length - head) = pending := by
        rw [hdrop, Nat.add_sub_cancel_left, List.take_left']
        rfl
      rw [htake]
      have hdrop2 : name.drop (head + pending.length) = (u :: t) ++ ws.flatten := by
        rw [← List.drop_drop, hdrop, List.drop_left']
        · simp
        · rfl
      have := ih (u :: t) (head + pending.length) (strs ++ [pending])
        (fun w hw => hws w (List.mem_cons_of_mem _ hw)) hdrop2 (List.cons_ne_nil _ _)
      simp only [List.length_cons] at this
      rw [Nat.add_assoc, Nat.add_comm 1 t.length, this]
      simp

/-- The function `splitName` gives back the capitalised words a name is made of. -/
theorem splitName_words (w : List Char) (ws : List (List Char))
    (hws : ∀ v ∈ w :: ws, isWord v = true) : splitName (w :: ws).flatten = w :: ws := by
  have hw : isWord w = true := hws w (List.mem_cons_self _ _)
  cases w with
  | nil => simp [isWord] at hw
  | cons u t =>
    obtain ⟨_, ht⟩ := isWord_cons hw
    unfold splitName
    have hflat : ((u :: t) :: ws).flatten = u :: (t ++ ws.flatten) := by simp
    rw [hflat, splitName.go]
    simp only [bne_self_eq_false, Bool.and_false, Bool.false_eq_true, if_false]
    rw [splitName_go_skip _ t ws.flatten _ _ _ ht]
    have := splitName_go_words (u :: (t ++ ws.flatten)) ws (u :: t) 0 []
      (fun v hv => hws v (List.mem_cons_of_mem _ hv)) (by simp) (List.cons_ne_nil _ _)
    simp only [List.length_cons, Nat.zero_add, List.nil_append] at this
    rw [Nat.add_comm] at this
    simpa using this

theorem getRouteByName_loop_segments : ∀ (n : Nat) (names : List (List Char)) (acc : List Char),
    names.length ≤ n →
    getRouteByName.loop names acc = acc ++ (routeSegments names).flatten := by
  intro n
  induction n with
  | zero =>
    intro names acc hlen
    have : names = [] := List.length_eq_zero.mp (Nat.le_zero.mp hlen)
    subst this
    simp [getRouteByName.loop, routeSegments]
  | succ n ih =>
    intro names acc hlen
    match names with
    | [] => simp [getRouteByName.loop, routeSegments]
    | [w] =>
      by_cases hby : w = "By".data <;> simp [getRouteByName.loop, routeSegments, hby]
    | w :: p :: rest =>
      simp only [List.length_cons] at hlen
      by_cases hby : w = "By".data
      · simp only [getRouteByName.loop, routeSegments, hby, if_true]
        rw [ih rest _ (by omega)]
        simp
      · simp only [getRouteByName.loop, routeSegments, hby, if_false]
        rw [ih (p :: rest) _ (by simp only [List.length_cons]; omega)]
        simp

/-- C14: for a method name made of the capitalised words `w :: ws`,
`getRouteByName` drops `w` when `checkAllowMethod` accepts it, returns `/*`
when no word remains, and otherwise returns the lower-cased concatenation of
the segments of the remaining words (`/w`, `/:w` after `By`, `/*` for a last
`By`); with the four names of the doc comment. -/
theorem getRouteByName_words (lower : List Char → List Char) (w : List Char)
    (ws : List (List Char)) (hws : ∀ v ∈ w :: ws, isWord v = true) :
    getRouteByName lower (w :: ws).flatten =
      (if (if checkAllowMethod w = true then ws else w :: ws) = [] then "/*".data
       else lower (routeSegments (if checkAllowMethod w = true then ws else w :: ws)).flatten) ∧
    getRouteByName asciiLower "Hello".data = "/hello".data ∧
    getRouteByName asciiLower "Get".data = "/*".data ∧
    getRouteByName asciiLower "GetId".data = "/id".data ∧
    getRouteByName asciiLower "GetById".data = "/:id".data := by
  refine ⟨?_, by decide, by decide, by decide, by decide⟩
  unfold getRouteByName
  rw [splitName_words w ws hws]
  by_cases hm : checkAllowMethod w = true
  · simp only [List.headD_cons, hm, if_true, List.drop_one, List.tail_cons, List.length_eq_zero]
    split_ifs with h0
    · rfl
    · rw [getRouteByName_loop_segments ws.length ws [] (le_refl _)]
      simp
  · simp only [List.headD_cons, hm, if_false, List.length_eq_zero, Bool.false_eq_true]
    rw [getRouteByName_loop_segments (w :: ws).length (w :: ws) [] (le_refl _)]
    simp

theorem getRouteByName_words_witness :
    (∀ v ∈ ["Get".data, "By".data, "Id".data, "Name".data], isWord v = true) ∧
    getRouteByName asciiLower "GetByIdName".data = "/:id/name".data :=
  ⟨by decide, by
    have key := (getRouteByName_words asciiLower "Get".data ["By".data, "Id".data, "Name".data]
      (by decide)).1
    have hflat : ["Get".data, "By".data, "Id".data, "Name".data].flatten = "GetByIdName".data := by
      decide
    rw [hflat] at key
    rw [key]
    decide⟩

theorem getFirstUp_go_skip (name : List Char) : ∀ (w rest : List Char) (i : Nat),
    (∀ c ∈ w, isUpperRune c = false) →
    getFirstUp.go name (w ++ rest) i = getFirstUp.go name rest (i + w.length) := by
  intro w
  induction w with
  | nil => intro rest i _; rfl
  | cons c w ih =>
    intro rest i hw
    have hc : isUpperRune c = false := hw c (List.mem_cons_self _ _)
    rw [List.cons_append, getFirstUp.go]
    simp only [hc, Bool.false_and, Bool.false_eq_true, if_false]
    rw [ih rest (i + 1) (fun d hd => hw d (List.mem_cons_of_mem _ hd))]
    congr 1
    simp only [List.length_cons]
    omega

/-- The function `getFirstUp` gives back the first of the capitalised words a
name is made of. -/
theorem getFirstUp_words (w : List Char) (ws : List (List Char))
    (hws : ∀ v ∈ w :: ws, isWord v = true) : getFirstUp (w :: ws).flatten = w := by
  have hw : isWord w = true := hws w (List.mem_cons_self _ _)
  cases w with
  | nil => simp [isWord] at hw
  | cons u t =>
    obtain ⟨_, ht⟩ := isWord_cons hw
    unfold getFirstUp
    have hflat : ((u :: t) :: ws).flatten = u :: (t ++ ws.flatten) := by simp
    rw [hflat, getFirstUp.go]
    simp only [bne_self_eq_false, Bool.and_false, Bool.false_eq_true, if_false]
    rw [getFirstUp_go_skip _ t ws.flatten _ ht]
    cases ws with
    | nil => simp [getFirstUp.go]
    | cons w2 ws2 =>
      have hw2 : isWord w2 = true := hws w2 (by simp)
      cases w2 with
      | nil => simp [isWord] at hw2
      | cons u2 t2 =>
        obtain ⟨hu2, _⟩ := isWord_cons hw2
        rw [List.flatten_cons, List.cons_append, getFirstUp.go]
        simp [hu2, Nat.add_comm]

/-- C15 on the code: for the names `HeadInfo`, `ConnectPeer` and `TraceAll`,
whose first word is none of Get, Post, Put, Delete, Patch, Options,
`getRouteMethod` returns `HEAD`, `CONNECT` and `TRACE`, where the doc comment
of `ControllerInjectWithPool` has `ANY`. -/
theorem getRouteMethod_any_refuted :
    getRouteMethod asciiUpper "HeadInfo".data = "HEAD".data ∧
    getRouteMethod asciiUpper "ConnectPeer".data = "CONNECT".data ∧
    getRouteMethod asciiUpper "TraceAll".data = "TRACE".data ∧
    getFirstUp "HeadInfo".data = "Head".data ∧
    "Head".data ∉ ["Get".data, "Post".data, "Put".data, "Delete".data, "Patch".data,
      "Options".data] ∧
    getRouteMethod asciiUpper "HeadInfo".data ≠ "ANY".data := by
  decide

/-- The method of a route as `getRouteMethod` computes it: the upper-cased first
capitalised word of the name when that word is one of the ten words of
`checkAllowMethod`, and `ANY` for every other name. -/
theorem getRouteMethod_allowed (upper : List Char → List Char) (name : List Char) :
    getRouteMethod upper name =
      (if getFirstUp name ∈ ["Any".data, "Get".data, "Post".data, "Put".data, "Delete".data,
          "Head".data, "Patch".data, "Options".data, "Connect".data, "Trace".data]
       then upper (getFirstUp name) else "ANY".data) ∧
    (∀ (w : List Char) (ws : List (List Char)), (∀ v ∈ w :: ws, isWord v = true) →
      getFirstUp (w :: ws).flatten = w) ∧
    getRouteMethod asciiUpper "Hello".data = "ANY".data ∧
    getRouteMethod asciiUpper "GetById".data = "GET".data := by
  refine ⟨?_, getFirstUp_words, by decide, by decide⟩
  unfold getRouteMethod checkAllowMethod
  dsimp only
  by_cases hm : getFirstUp name ∈ ["Any".data, "Get".data, "Post".data, "Put".data,
      "Delete".data, "Head".data, "Patch".data, "Options".data, "Connect".data, "Trace".data]
  · rw [if_pos hm, if_pos]
    rw [List.any_eq_true]
    exact ⟨_, hm, by simp⟩
  · rw [if_neg hm, if_neg]
    rw [List.any_eq_true]
    rintro ⟨x, hx, hxe⟩
    rw [beq_iff_eq] at hxe
    exact hm (hxe ▸ hx)

end Controller

end Eudore

namespace Eudore

theorem GoMap.lookup_cons_ne {K V : Type} [DecidableEq K] (m : List (K × V)) (a k2 : K) (v : V)
    (h : k2 ≠ a) : List.lookup k2 ((a, v) :: m) = List.lookup k2 m := by
  rw [List.lookup_cons, beq_false_of_ne h]

theorem GoMap.lookup_cons_eq {K V : Type} [DecidableEq K] (m : List (K × V)) (a : K) (v : V) :
    List.lookup a ((a, v) :: m) = some v := by
  rw [List.lookup_cons, beq_self_eq_true]

theorem GoMap.lookup_filter_ne {K V : Type} [DecidableEq K] (m : GoMap K V) (k k2 : K) :
    List.lookup k2 (m.filter (fun p => p.1 != k)) = if k2 = k then none else List.lookup k2 m := by
  induction m with
  | nil => simp
  | cons p m ih =>
    obtain ⟨a, v⟩ := p
    by_cases ha : a = k
    · subst ha
      rw [List.filter_cons_of_neg (by simp), ih]
      by_cases h2 : k2 = a
      · simp [h2]
      · rw [if_neg h2, if_neg h2, GoMap.lookup_cons_ne m a k2 v h2]
    · rw [List.filter_cons_of_pos (by simpa using ha)]
      by_cases h2 : k2 = k
      · subst h2
        have hne : k2 ≠ a := fun h => ha h.symm
        rw [GoMap.lookup_cons_ne _ a k2 v hne, ih, if_pos rfl, if_pos rfl]
      · rw [if_neg h2] at ih ⊢
        by_cases h3 : k2 = a
        · subst h3
          rw [GoMap.lookup_cons_eq, GoMap.lookup_cons_eq]
        · rw [GoMap.lookup_cons_ne _ a k2 v h3, GoMap.lookup_cons_ne _ a k2 v h3, ih]

theorem GoMap.get_store {K V : Type} [DecidableEq K] (m : GoMap K V) (k k2 : K) (v : V) :
    GoMap.get (GoMap.store m k v) k2 = if k2 = k then some v else GoMap.get m k2 := by
  unfold GoMap.get GoMap.store
  by_cases h : k2 = k
  · subst h
    rw [if_pos rfl, GoMap.lookup_cons_eq]
  · rw [if_neg h, GoMap.lookup_cons_ne _ k k2 v h, GoMap.lookup_filter_ne, if_neg h]

theorem GoMap.get_delete {K V : Type} [DecidableEq K] (m : GoMap K V) (k k2 : K) :
    GoMap.get (GoMap.delete m k) k2 = if k2 = k then none else GoMap.get m k2 := by
  unfold GoMap.get GoMap.delete
  exact GoMap.lookup_filter_ne m k k2

namespace Ram

theorem get_nil {V : Type} (p : Int) : GoMap.get ([] : GoMap Int V) p = none := rfl

theorem length_zero_get {V : Type} (ps : GoMap Int V) (p : Int) (h : ps.length = 0) :
    GoMap.get ps p = none := by
  have : ps = [] := List.length_eq_zero.mp h
  subst this
  rfl

theorem bound_bindIn (binds : GoMap Int (GoMap Int Unit)) (i q id p : Int) :
    bound (bindIn binds i q) id p = if id = i ∧ p = q then true else bound binds id p := by
  unfold bound bindIn
  by_cases hid : id = i
  · subst hid
    cases hg : GoMap.get binds id with
    | none =>
      by_cases hp : p = q <;> simp [GoMap.get_store, hp, get_nil]
    | some ps =>
      by_cases hp : p = q <;> simp [GoMap.get_store, hp]
  · cases hg : GoMap.get binds i <;> simp [GoMap.get_store, hid]

theorem bound_unbindIn (binds : GoMap Int (GoMap Int Unit)) (i q id p : Int) :
    bound (unbindIn binds i q) id p = if id = i ∧ p = q then false else bound binds id p := by
  unfold unbindIn
  cases hg : GoMap.get binds i with
  | none =>
    by_cases hid : id = i
    · subst hid
      simp [bound, hg]
    · simp [hid]
  | some ps =>
    dsimp only
    by_cases hlen : (GoMap.delete ps q).length = 0
    · rw [if_pos hlen]
      unfold bound
      by_cases hid : id = i
      · subst hid
        have hnone := length_zero_get (GoMap.delete ps q) p hlen
        rw [GoMap.get_delete] at hnone
        by_cases hp : p = q
        · simp [GoMap.get_delete, hp]
        · rw [if_neg hp] at hnone
          simp [GoMap.get_delete, hp, hg, hnone]
      · simp [GoMap.get_delete, hid]
    · rw [if_neg hlen]
      unfold bound
      by_cases hid : id = i
      · subst hid
        by_cases hp : p = q <;> simp [GoMap.get_store, GoMap.get_delete, hp, hg]
      · simp [GoMap.get_store, hid]

theorem call_AllowBinds (acl : ACL) (c : ACLCall) (id p : Int) :
    bound (acl.call c).AllowBinds id p = allowStep id p (bound acl.AllowBinds id p) c := by
  cases c with
  | BindPermission i q allow =>
    cases allow <;>
      simp [ACL.call, ACL.BindPermission, ACL.BindAllowPermission, ACL.BindDenyPermission,
        allowStep, bound_bindIn]
  | _ =>
    simp [ACL.call, ACL.AddPermission, ACL.DeletePermission, ACL.BindAllowPermission,
      ACL.BindDenyPermission, ACL.UnbindPermission, ACL.UnbindAllowPermission,
      ACL.UnbindDenyPermission, allowStep, bound_bindIn, bound_unbindIn]

theorem call_DenyBinds (acl : ACL) (c : ACLCall) (id p : Int) :
    bound (acl.call c).DenyBinds id p = denyStep id p (bound acl.DenyBinds id p) c := by
  cases c with
  | BindPermission i q allow =>
    cases allow <;>
      simp [ACL.call, ACL.BindPermission, ACL.BindAllowPermission, ACL.BindDenyPermission,
        denyStep, bound_bindIn]
  | _ =>
    simp [ACL.call, ACL.AddPermission, ACL.DeletePermission, ACL.BindAllowPermission,
      ACL.BindDenyPermission, ACL.UnbindPermission, ACL.UnbindAllowPermission,
      ACL.UnbindDenyPermission, denyStep, bound_bindIn, bound_unbindIn]

theorem call_Permissions (acl : ACL) (c : ACLCall) (perm : String) :
    GoMap.get (acl.call c).Permissions perm =
      registeredStep perm (GoMap.get acl.Permissions perm) c := by
  cases c with
  | BindPermission i q allow =>
    cases allow <;>
      simp [ACL.call, ACL.BindPermission, ACL.BindAllowPermission, ACL.BindDenyPermission,
        registeredStep]
  | AddPermission i p =>
    simp only [ACL.call, ACL.AddPermission, registeredStep, GoMap.get_store]
    by_cases h : perm = p
    · simp [h]
    · have : ¬ p = perm := fun h2 => h h2.symm
      simp [h, this]
  | DeletePermission p =>
    simp only [ACL.call, ACL.DeletePermission, registeredStep, GoMap.get_delete]
    by_cases h : perm = p
    · simp [h]
    · have : ¬ p = perm := fun h2 => h h2.symm
      simp [h, this]
  | _ =>
    simp [ACL.call, ACL.BindAllowPermission,
      ACL.BindDenyPermission, ACL.UnbindPermission, ACL.UnbindAllowPermission,
      ACL.UnbindDenyPermission, registeredStep]

theorem foldl_calls (calls : List ACLCall) (id p : Int) (perm : String) : ∀ (acl : ACL),
    bound (calls.foldl ACL.call acl).AllowBinds id p =
        calls.foldl (allowStep id p) (bound acl.AllowBinds id p) ∧
    bound (calls.foldl ACL.call acl).DenyBinds id p =
        calls.foldl (denyStep id p) (bound acl.DenyBinds id p) ∧
    GoMap.get (calls.foldl ACL.call acl).Permissions perm =
        calls.foldl (registeredStep perm) (GoMap.get acl.Permissions perm) := by
  induction calls with
  | nil => intro acl; exact ⟨rfl, rfl, rfl⟩
  | cons c cs ih =>
    intro acl
    simp only [List.foldl_cons]
    rw [← call_AllowBinds, ← call_DenyBinds, ← call_Permissions]
    exact ih (acl.call c)

/-- C16: after any sequence of `AddPermission`, `DeletePermission`, bind and
unbind calls on `NewACL`, `Match(id, perm)` is `(false, false)` when `perm` is
not registered, and for `perm` registered to `p` it is `(true, true)` when the
last allow bind/unbind on `(id, p)` was a bind, else `(false, true)` when the
last deny bind/unbind on `(id, p)` was a bind, else `(false, false)`; after
`UnbindPermission(id, p)` it is `(false, false)` for a `perm` registered to `p`. -/
theorem Match_by_history (calls : List ACLCall) (id : Int) (perm : String) :
    (ACL.after calls).Match id perm = matchByHistory calls id perm ∧
    (∀ p, registered calls perm = some p →
      ((ACL.after calls).UnbindPermission id p).Match id perm = (false, false)) ∧
    (registered calls perm = none → (ACL.after calls).Match id perm = (false, false)) := by
  have hperm : GoMap.get (ACL.after calls).Permissions perm = registered calls perm :=
    (foldl_calls calls id 0 perm NewACL).2.2
  have hmatch : (ACL.after calls).Match id perm = matchByHistory calls id perm := by
    unfold ACL.Match matchByHistory
    rw [hperm]
    cases hr : registered calls perm with
    | none => rfl
    | some p =>
      have h := foldl_calls calls id p perm NewACL
      simp only [lastAllowIsBind, lastDenyIsBind]
      rw [show (ACL.after calls) = calls.foldl ACL.call NewACL from rfl, h.1, h.2.1]
      rfl
  refine ⟨hmatch, ?_, ?_⟩
  · intro p hp
    have h := foldl_calls (calls ++ [ACLCall.UnbindPermission id p]) id p perm NewACL
    simp only [List.foldl_append, List.foldl_cons, List.foldl_nil] at h
    have hcall : (ACL.after calls).UnbindPermission id p =
        (List.foldl ACL.call NewACL calls).call (ACLCall.UnbindPermission id p) := rfl
    have hreg : List.foldl (registeredStep perm) (GoMap.get NewACL.Permissions perm) calls =
        some p := hp
    rw [hcall]
    unfold ACL.Match
    rw [h.2.2]
    simp only [registeredStep, hreg]
    rw [h.1, h.2.1]
    simp [allowStep, denyStep]
  · intro hnone
    rw [hmatch]
    unfold matchByHistory
    rw [hnone]

end Ram

end Eudore

namespace Eudore

namespace MiddlewareRam

theorem Split_no_sep (sep : Char) : ∀ (w : List Char), (∀ c ∈ w, c ≠ sep) →
    Split sep w = [w] := by
  intro w
  induction w with
  | nil => intro _; rfl
  | cons c w ih =>
    intro hw
    have hc : c ≠ sep := hw c (List.mem_cons_self _ _)
    rw [Split, if_neg hc, ih (fun d hd => hw d (List.mem_cons_of_mem _ hd))]

theorem Split_append_sep (sep : Char) (rest : List Char) : ∀ (w : List Char),
    (∀ c ∈ w, c ≠ sep) → Split sep (w ++ sep :: rest) = w :: Split sep rest := by
  intro w
  induction w with
  | nil => intro _; rw [List.nil_append, Split, if_pos rfl]
  | cons c w ih =>
    intro hw
    have hc : c ≠ sep := hw c (List.mem_cons_self _ _)
    rw [List.cons_append, Split, if_neg hc, ih (fun d hd => hw d (List.mem_cons_of_mem _ hd))]

theorem Split_joinComma : ∀ (ws : List (List Char)), ws ≠ [] →
    (∀ w ∈ ws, ∀ c ∈ w, c ≠ ',') → Split ',' (joinComma ws) = ws := by
  intro ws
  induction ws with
  | nil => intro h; exact absurd rfl h
  | cons w ws ih =>
    intro _ hws
    cases ws with
    | nil =>
      rw [joinComma]
      exact Split_no_sep ',' w (hws w (List.mem_cons_self _ _))
    | cons v ws =>
      rw [joinComma, Split_append_sep ',' _ w (hws w (List.mem_cons_self _ _)),
        ih (List.cons_ne_nil _ _) (fun u hu => hws u (List.mem_cons_of_mem _ hu))]

theorem digitChar_spec (d : Nat) (hd : d < 10) :
    (digitChar d).toNat = 48 + d ∧ isDigit (digitChar d) = true ∧ digitChar d ≠ ',' := by
  interval_cases d <;> decide

theorem natDecimal_go_digits : ∀ (fuel n : Nat) (acc : List Char),
    acc.all isDigit = true → (natDecimal.go fuel n acc).all isDigit = true := by
  intro fuel
  induction fuel with
  | zero => intro n acc h; exact h
  | succ fuel ih =>
    intro n acc h
    have hd := (digitChar_spec (n % 10) (Nat.mod_lt _ (by norm_num))).2.1
    rw [natDecimal.go]
    split_ifs
    · simp only [List.all_cons, hd, h, Bool.and_self]
    · apply ih
      simp only [List.all_cons, hd, h, Bool.and_self]

theorem natDecimal_go_value : ∀ (fuel n : Nat) (acc : List Char), n < fuel →
    (natDecimal.go fuel n acc).foldl (fun a c => a * 10 + (c.toNat - 48)) 0 =
      acc.foldl (fun a c => a * 10 + (c.toNat - 48)) n := by
  intro fuel
  induction fuel with
  | zero => intro n acc h; omega
  | succ fuel ih =>
    intro n acc h
    have hd := (digitChar_spec (n % 10) (Nat.mod_lt _ (by norm_num))).1
    rw [natDecimal.go]
    split_ifs with h0
    · simp only [List.foldl_cons, hd]
      congr 1
      omega
    · rw [ih (n / 10) _ (by omega)]
      simp only [List.foldl_cons, hd]
      congr 1
      omega

theorem natDecimal_go_ne_nil : ∀ (fuel n : Nat) (acc : List Char), acc ≠ [] →
    natDecimal.go fuel n acc ≠ [] := by
  intro fuel
  induction fuel with
  | zero => intro n acc h; exact h
  | succ fuel ih =>
    intro n acc _
    rw [natDecimal.go]
    split_ifs
    · exact List.cons_ne_nil _ _
    · exact ih _ _ (List.cons_ne_nil _ _)

theorem natDecimal_spec (n : Nat) :
    natDecimal n ≠ [] ∧ (natDecimal n).all isDigit = true ∧ digitsValue (natDecimal n) = n := by
  refine ⟨?_, natDecimal_go_digits _ _ _ rfl, ?_⟩
  · unfold natDecimal
    rw [natDecimal.go]
    split_ifs
    · exact List.cons_ne_nil _ _
    · exact natDecimal_go_ne_nil _ _ _ (List.cons_ne_nil _ _)
  · unfold natDecimal digitsValue
    rw [natDecimal_go_value _ _ _ (Nat.lt_succ_self n)]
    rfl

theorem stripSign_digits (s : List Char) (hne : s ≠ []) (hd : s.all isDigit = true) :
    stripSign s = s ∧ hasMinus s = false := by
  cases s with
  | nil => exact absurd rfl hne
  | cons c cs =>
    have hc : isDigit c = true := by
      simp only [List.all_cons, Bool.and_eq_true] at hd
      exact hd.1
    have hm : c ≠ '-' := by
      intro h
      rw [h] at hc
      exact absurd hc (by decide)
    have hp : c ≠ '+' := by
      intro h
      rw [h] at hc
      exact absurd hc (by decide)
    constructor
    · unfold stripSign
      split
      · next r heq => exact absurd (List.cons.inj heq).1 hm
      · next r heq => exact absurd (List.cons.inj heq).1 hp
      · rfl
    · unfold hasMinus
      split
      · next r heq => exact absurd (List.cons.inj heq).1 hm
      · rfl

/-- The function `Atoi` reads back an `int` written in decimal. -/
theorem Atoi_decimal (x : Int) (hlo : -(2 ^ 63 : Int) ≤ x) (hhi : x < (2 ^ 63 : Int)) :
    Atoi (decimal x) = (x, false) := by
  cases x with
  | ofNat n =>
    obtain ⟨hne, hdig, hval⟩ := natDecimal_spec n
    obtain ⟨hs, hm⟩ := stripSign_digits _ hne hdig
    have hn : ¬ n > 2 ^ 63 - 1 := by
      have : (n : Int) < 2 ^ 63 := hhi
      omega
    simp only [Atoi, decimal, hs, hm, hne, hdig, hval, false_or, Bool.true_eq_false, if_false,
      Bool.false_eq_true, hn]
    rfl
  | negSucc n =>
    obtain ⟨hne, hdig, hval⟩ := natDecimal_spec (n + 1)
    have hs : stripSign ('-' :: natDecimal (n + 1)) = natDecimal (n + 1) := rfl
    have hm : hasMinus ('-' :: natDecimal (n + 1)) = true := rfl
    have hn : ¬ n + 1 > 2 ^ 63 := by
      have : -(2 ^ 63 : Int) ≤ Int.negSucc n := hlo
      rw [Int.negSucc_eq] at this
      omega
    simp only [Atoi, decimal, hs, hm, hne, hdig, hval, false_or, Bool.true_eq_false, if_false,
      if_true, hn]
    rfl

theorem decimal_no_comma (x : Int) : ∀ c ∈ decimal x, c ≠ ',' := by
  have hdigit : ∀ (l : List Char), l.all isDigit = true → ∀ c ∈ l, c ≠ ',' := by
    intro l hl c hc h
    rw [List.all_eq_true] at hl
    have := hl c hc
    rw [h] at this
    exact absurd this (by decide)
  cases x with
  | ofNat n => exact hdigit _ (natDecimal_spec n).2.1
  | negSucc n =>
    intro c hc
    rw [decimal, List.mem_cons] at hc
    rcases hc with hc | hc
    · rw [hc]
      decide
    · exact hdigit _ (natDecimal_spec (n + 1)).2.1 c hc

theorem GoMap_store_store (m : GoMap Int (List Int)) (k : Int) (v v2 : List Int) :
    GoMap.store (GoMap.store m k v) k v2 = GoMap.store m k v2 := by
  unfold GoMap.store
  rw [List.filter_cons_of_neg (by simp), List.filter_filter]
  simp

theorem foldl_BindPolicy (id : Int) : ∀ (ps : List Int) (p : Pbac), ps ≠ [] →
    ps.foldl (fun q x => q.BindPolicy id x) p =
      { p with PolicyBinds := GoMap.store p.PolicyBinds id (p.binds id ++ ps) } := by
  intro ps
  induction ps with
  | nil => intro p h; exact absurd rfl h
  | cons x ps ih =>
    intro p _
    cases ps with
    | nil => rfl
    | cons y ps =>
      rw [List.foldl_cons, ih _ (List.cons_ne_nil _ _)]
      simp only [Pbac.BindPolicy, Pbac.binds, GoMap.get_store, if_true, GoMap_store_store,
        List.append_assoc, List.singleton_append]

/-- C17: for a user id and a non-empty list of `int` values, `BindStrings` on
the values written in decimal and joined with commas leaves the `Pbac` as the
calls of `BindPolicy` on the values, in order, leave it: the values are
appended to the bindings of the user and the bindings of any other user stay. -/
theorem BindStrings_eq_BindPolicy (p : Pbac) (id : Int) (ps : List Int) (hne : ps ≠ [])
    (hint : ∀ x ∈ ps, -(2 ^ 63 : Int) ≤ x ∧ x < (2 ^ 63 : Int)) :
    p.BindStrings id (joinComma (ps.map decimal)) =
        ps.foldl (fun q x => q.BindPolicy id x) p ∧
    (p.BindStrings id (joinComma (ps.map decimal))).binds id = p.binds id ++ ps ∧
    (∀ id2, id2 ≠ id →
      (p.BindStrings id (joinComma (ps.map decimal))).binds id2 = p.binds id2) := by
  have hsplit : Split ',' (joinComma (ps.map decimal)) = ps.map decimal := by
    apply Split_joinComma
    · simpa using hne
    · intro w hw
      rw [List.mem_map] at hw
      obtain ⟨x, _, rfl⟩ := hw
      exact decimal_no_comma x
  have hatoi : (ps.map decimal).map (fun s => (Atoi s).1) = ps := by
    rw [List.map_map]
    conv_rhs => rw [← List.map_id ps]
    apply List.map_congr_left
    intro x hx
    simp only [Function.comp_apply, id_eq]
    rw [Atoi_decimal x (hint x hx).1 (hint x hx).2]
  have hbind : p.BindStrings id (joinComma (ps.map decimal)) =
      { p with PolicyBinds := GoMap.store p.PolicyBinds id (p.binds id ++ ps) } := by
    unfold Pbac.BindStrings
    simp only [hsplit, hatoi]
  refine ⟨?_, ?_, ?_⟩
  · rw [hbind, foldl_BindPolicy id ps p hne]
  · rw [hbind]
    simp [Pbac.binds, GoMap.get_store]
  · intro id2 hid
    rw [hbind]
    simp [Pbac.binds, GoMap.get_store, hid]

theorem BindStrings_eq_BindPolicy_witness :
    ([0, 1, 2] : List Int) ≠ [] ∧
    joinComma (([0, 1, 2] : List Int).map decimal) = "0,1,2".data ∧
    NewPbac.BindStrings 0 "0,1,2".data =
      ((NewPbac.BindPolicy 0 0).BindPolicy 0 1).BindPolicy 0 2 ∧
    (NewPbac.BindStrings 0 "0,1,2".data).PolicyBinds = [(0, [0, 1, 2])] :=
  ⟨by decide, by decide,
    (BindStrings_eq_BindPolicy NewPbac 0 [0, 1, 2] (by decide) (by decide)).1, by decide⟩

end MiddlewareRam

end Eudore

namespace Eudore

theorem GoMap.ne_of_get_none {K V : Type} [DecidableEq K] (m : GoMap K V) (k : K)
    (h : GoMap.get m k = none) : ∀ p ∈ m, p.1 ≠ k := by
  induction m with
  | nil => intro p hp; simp at hp
  | cons q m ih =>
    obtain ⟨a, v⟩ := q
    unfold GoMap.get at h ih
    by_cases hka : k = a
    · subst hka
      rw [GoMap.lookup_cons_eq] at h
      exact absurd h (by simp)
    · rw [GoMap.lookup_cons_ne m a k v hka] at h
      intro p hp
      rcases List.mem_cons.mp hp with hp | hp
      · subst hp
        exact fun h2 => hka h2.symm
      · exact ih h p hp

theorem GoMap.eq_of_get_some {K V : Type} [DecidableEq K] (m : GoMap K V) (k : K) (v : V)
    (hnd : (m.map Prod.fst).Nodup) (h : GoMap.get m k = some v) :
    (k, v) ∈ m ∧ ∀ p ∈ m, p.1 = k → p.2 = v := by
  induction m with
  | nil => simp [GoMap.get] at h
  | cons q m ih =>
    obtain ⟨a, w⟩ := q
    rw [List.map_cons, List.nodup_cons] at hnd
    unfold GoMap.get at h ih
    by_cases hka : k = a
    · subst hka
      rw [GoMap.lookup_cons_eq] at h
      have hw : w = v := Option.some.inj h
      subst hw
      refine ⟨List.mem_cons_self _ _, ?_⟩
      intro p hp hpk
      rcases List.mem_cons.mp hp with hp | hp
      · subst hp
        rfl
      · exact absurd (List.mem_map.mpr ⟨p, hp, hpk⟩) hnd.1
    · rw [GoMap.lookup_cons_ne m a k w hka] at h
      obtain ⟨h1, h2⟩ := ih hnd.2 h
      refine ⟨List.mem_cons_of_mem _ h1, ?_⟩
      intro p hp hpk
      rcases List.mem_cons.mp hp with hp | hp
      · subst hp
        exact absurd hpk.symm hka
      · exact h2 p hp hpk

theorem GoMap.nodup_delete {K V : Type} [DecidableEq K] (m : GoMap K V) (k : K)
    (hnd : (m.map Prod.fst).Nodup) : ((GoMap.delete m k).map Prod.fst).Nodup :=
  hnd.sublist ((List.filter_sublist m).map Prod.fst)

theorem GoMap.nodup_store {K V : Type} [DecidableEq K] (m : GoMap K V) (k : K) (v : V)
    (hnd : (m.map Prod.fst).Nodup) : ((GoMap.store m k v).map Prod.fst).Nodup := by
  unfold GoMap.store
  rw [List.map_cons, List.nodup_cons]
  refine ⟨?_, GoMap.nodup_delete m k hnd⟩
  intro hmem
  obtain ⟨p, hp, hpk⟩ := List.mem_map.mp hmem
  have := (List.mem_filter.mp hp).2
  simp only [bne_iff_ne, ne_eq] at this
  exact this hpk

theorem GoMap.foldl_delete {K V : Type} [DecidableEq K] (cond : K × V → Bool) (k : K) :
    ∀ (entries acc : GoMap K V),
    GoMap.get (entries.foldl (fun m p => if cond p = true then GoMap.delete m p.1 else m) acc) k =
      if ∃ p ∈ entries, p.1 = k ∧ cond p = true then none else GoMap.get acc k := by
  intro entries
  induction entries with
  | nil => intro acc; simp
  | cons q entries ih =>
    intro acc
    rw [List.foldl_cons, ih]
    by_cases hex : ∃ p ∈ entries, p.1 = k ∧ cond p = true
    · rw [if_pos hex, if_pos]
      obtain ⟨p, hp, hpk⟩ := hex
      exact ⟨p, List.mem_cons_of_mem _ hp, hpk⟩
    · rw [if_neg hex]
      by_cases hq : cond q = true
      · rw [if_pos hq, GoMap.get_delete]
        by_cases hk : k = q.1
        · rw [if_pos hk, if_pos]
          exact ⟨q, List.mem_cons_self _ _, hk.symm, hq⟩
        · rw [if_neg hk, if_neg]
          rintro ⟨p, hp, hpk, hpc⟩
          rcases List.mem_cons.mp hp with hp | hp
          · subst hp
            exact hk hpk.symm
          · exact hex ⟨p, hp, hpk, hpc⟩
      · rw [if_neg hq, if_neg]
        rintro ⟨p, hp, hpk, hpc⟩
        rcases List.mem_cons.mp hp with hp | hp
        · subst hp
          exact hq hpc
        · exact hex ⟨p, hp, hpk, hpc⟩

theorem GoMap.nodup_foldl_delete {K V : Type} [DecidableEq K] (cond : K × V → Bool) :
    ∀ (entries acc : GoMap K V), (acc.map Prod.fst).Nodup →
    ((entries.foldl (fun m p => if cond p = true then GoMap.delete m p.1 else m)
      acc).map Prod.fst).Nodup := by
  intro entries
  induction entries with
  | nil => intro acc h; exact h
  | cons q entries ih =>
    intro acc h
    rw [List.foldl_cons]
    apply ih
    split_ifs
    · exact GoMap.nodup_delete acc q.1 h
    · exact h

namespace Session

theorem Clean_get {V : Type} (store : StoreMap V) (expires : Int) (key : String)
    (hnd : (store.data.map Prod.fst).Nodup) :
    GoMap.get (store.Clean expires).data key =
      (match GoMap.get store.data key with
      | some entry => if expires > entry.time then none else some entry
      | none => none) := by
  unfold StoreMap.Clean
  have h := GoMap.foldl_delete (fun p : String × storeMapKey V => decide (expires > p.2.time)) key
    store.data store.data
  simp only [decide_eq_true_eq] at h
  rw [h]
  cases hg : GoMap.get store.data key with
  | none =>
    rw [if_neg]
    rintro ⟨p, hp, hpk, _⟩
    exact GoMap.ne_of_get_none store.data key hg p hp hpk
  | some entry =>
    obtain ⟨hmem, huniq⟩ := GoMap.eq_of_get_some store.data key entry hnd hg
    by_cases he : expires > entry.time
    · rw [if_pos ⟨(key, entry), hmem, rfl, he⟩]
      simp [he]
    · rw [if_neg]
      · simp [he]
      · rintro ⟨p, hp, hpk, hpe⟩
        rw [huniq p hp hpk] at hpe
        exact he hpe

theorem call_nodup {V : Type} (store : StoreMap V) (c : StoreCall V)
    (hnd : (store.data.map Prod.fst).Nodup) : ((store.call c).data.map Prod.fst).Nodup := by
  cases c with
  | Insert key now => exact GoMap.nodup_store _ _ _ hnd
  | Delete key => exact GoMap.nodup_delete _ _ hnd
  | Update key val now => exact GoMap.nodup_store _ _ _ hnd
  | Clean expires =>
    have := GoMap.nodup_foldl_delete
      (fun p : String × storeMapKey V => decide (expires > p.2.time)) store.data store.data hnd
    simp only [decide_eq_true_eq] at this
    exact this

theorem call_get {V : Type} (store : StoreMap V) (c : StoreCall V) (key : String)
    (hnd : (store.data.map Prod.fst).Nodup) :
    GoMap.get (store.call c).data key = storedStep key (GoMap.get store.data key) c := by
  cases c with
  | Insert k now => simp only [StoreMap.call, StoreMap.Insert, storedStep, GoMap.get_store]
  | Delete k => simp only [StoreMap.call, StoreMap.Delete, storedStep, GoMap.get_delete]
  | Update k val now => simp only [StoreMap.call, StoreMap.Update, storedStep, GoMap.get_store]
  | Clean expires => exact Clean_get store expires key hnd

theorem foldl_call_get {V : Type} (key : String) : ∀ (calls : List (StoreCall V))
    (store : StoreMap V), (store.data.map Prod.fst).Nodup →
    GoMap.get (calls.foldl StoreMap.call store).data key =
      calls.foldl (storedStep key) (GoMap.get store.data key) := by
  intro calls
  induction calls with
  | nil => intro store _; rfl
  | cons c cs ih =>
    intro store hnd
    rw [List.foldl_cons, List.foldl_cons, ih _ (call_nodup store c hnd), call_get store c key hnd]

/-- C18: after any sequence of `Insert`, `Delete`, `Update` and `Clean` calls on
an empty `StoreMap`, `Select(k)` returns the data most recently stored for
`k` with a nil error when there is such data not removed since, and the nil
map with `ErrDataNotFound` otherwise; `Insert`, `Delete` and `Update` of a
key leave `Select` of any other key as it was. -/
theorem Select_by_history {V : Type} (calls : List (StoreCall V)) (key : String) :
    (StoreMap.after calls).Select key =
      (match stored calls key with
      | some entry => (some entry.data, GoError.nil)
      | none => (none, ErrDataNotFound)) ∧
    (((StoreMap.after calls).Select key).2 = ErrDataNotFound ↔ stored calls key = none) ∧
    (∀ (store : StoreMap V) (k : String) (val : GoMap String V) (now : Int), key ≠ k →
      (store.Insert k now).Select key = store.Select key ∧
      (store.Delete k).Select key = store.Select key ∧
      (store.Update k val now).Select key = store.Select key) ∧
    (∀ (store : StoreMap V) (val : GoMap String V) (now : Int),
      (store.Insert key now).Select key = (some [], GoError.nil) ∧
      (store.Update key val now).Select key = (some val, GoError.nil) ∧
      (store.Delete key).Select key = (none, ErrDataNotFound)) := by
  have hget : GoMap.get (StoreMap.after calls).data key = stored calls key :=
    foldl_call_get key calls (StoreMap.empty V) (by simp [StoreMap.empty])
  have hsel : (StoreMap.after calls).Select key =
      (match stored calls key with
      | some entry => (some entry.data, GoError.nil)
      | none => (none, ErrDataNotFound)) := by
    unfold StoreMap.Select
    rw [hget]
  refine ⟨hsel, ?_, ?_, ?_⟩
  · rw [hsel]
    cases stored calls key with
    | none => simp
    | some entry => simp [ErrDataNotFound]
  · intro store k val now hk
    simp [StoreMap.Select, StoreMap.Insert, StoreMap.Delete, StoreMap.Update, GoMap.get_store,
      GoMap.get_delete, hk]
  · intro store val now
    simp [StoreMap.Select, StoreMap.Insert, StoreMap.Delete, StoreMap.Update, GoMap.get_store,
      GoMap.get_delete]

end Session

end Eudore

namespace Eudore

namespace Server

theorem sliced_eq_unquote (b : List UInt8) (hb : b ≠ [34]) :
    (if b ≠ [] ∧ b.head? = some 34 ∧ b.getLast? = some 34 then goSlice b 1 (b.length - 1)
      else some b) = some (unquote b) := by
  by_cases hc : b ≠ [] ∧ b.head? = some 34 ∧ b.getLast? = some 34
  · rw [if_pos hc]
    have hlen : 2 ≤ b.length := by
      match b, hb, hc with
      | [], _, hc => exact absurd rfl hc.1
      | [x], hb, hc =>
        have : x = 34 := by simpa using hc.2.1
        subst this
        exact absurd rfl hb
      | _ :: _ :: _, _, _ => simp
    unfold goSlice unquote
    rw [if_pos ⟨by omega, by omega⟩, if_pos ⟨hlen, hc.2.1, hc.2.2⟩, List.drop_take]
    congr 2
  · rw [if_neg hc]
    unfold unquote
    rw [if_neg]
    rintro ⟨hlen, h1, h2⟩
    apply hc
    refine ⟨?_, h1, h2⟩
    intro h
    rw [h] at hlen
    simp at hlen

/-- C19 on the code: for the input that is the single byte `"`, the slice
`str[1 : len(str)-1]` is `str[1:0]` and `UnmarshalJSON` panics instead of
returning an error.  For every other input it does what the claim says: the
text without its surrounding quotes is read as a base-10 int64, else as a
duration, else a non-nil error is returned and the receiver keeps its value. -/
theorem UnmarshalJSON_lone_quote_panics (ParseInt ParseDuration : List UInt8 → Option Int)
    (d : Int) :
    UnmarshalJSON ParseInt ParseDuration d [34] = Outcome.panic ∧
    (∀ b, b ≠ [34] → UnmarshalJSON ParseInt ParseDuration d b =
      (match ParseInt (unquote b) with
      | some n => Outcome.returned n GoError.nil
      | none =>
        match ParseDuration (unquote b) with
        | some t => Outcome.returned t GoError.nil
        | none => Outcome.returned d errInvalidDuration)) := by
  refine ⟨by simp [UnmarshalJSON, goSlice], ?_⟩
  intro b hb
  unfold UnmarshalJSON
  simp only [sliced_eq_unquote b hb]

end Server


end Eudore

namespace Eudore

theorem withFinalize_append : ∀ (l1 : List Event) (c : Option Context) (l2 : List Event),
    withFinalize c (l1 ++ l2) = withFinalize c l1 ++ withFinalize (storedCancel c l1) l2 := by
  intro l1
  induction l1 with
  | nil => intro c l2; rfl
  | cons e l1 ih =>
    intro c l2
    rw [List.cons_append, withFinalize, withFinalize, ih, List.append_assoc]
    rfl

theorem storedCancel_append (l1 l2 : List Event) (c : Option Context) :
    storedCancel c (l1 ++ l2) = storedCancel (storedCancel c l1) l2 := by
  unfold storedCancel
  rw [List.foldl_append]

theorem ProtocolHttp.EudoreConn.withFinalize_servedEvents (h : ProtocolHttp.HttpHandler)
    (env : Env) (pctx : Context) (i : Nat) (c : Option Context) :
    withFinalize c (ProtocolHttp.EudoreConn.servedEvents h env pctx i) =
        ProtocolHttp.EudoreConn.finalizedEvents h env pctx i ∧
      storedCancel c (ProtocolHttp.EudoreConn.servedEvents h env pctx i) =
        some (Context.withCancel pctx i) :=
  ⟨rfl, rfl⟩

theorem ProtocolHttp.EudoreConn.withFinalize_keptAlive (h : ProtocolHttp.HttpHandler)
    (env : Env) (pctx : Context) : ∀ (k i : Nat) (c : Option Context),
    withFinalize c (ProtocolHttp.EudoreConn.keptAlive h env pctx i k) =
        ProtocolHttp.EudoreConn.keptAliveFinalized h env pctx i k ∧
      storedCancel c (ProtocolHttp.EudoreConn.keptAlive h env pctx i k) =
        lastCancel pctx c i k := by
  intro k
  induction k with
  | zero => intro i c; exact ⟨rfl, by simp [lastCancel, storedCancel,
      ProtocolHttp.EudoreConn.keptAlive]⟩
  | succ k ih =>
    intro i c
    obtain ⟨h1, h2⟩ := ProtocolHttp.EudoreConn.withFinalize_servedEvents h env pctx i c
    obtain ⟨h3, h4⟩ := ih (i + 1) (some (Context.withCancel pctx i))
    rw [ProtocolHttp.EudoreConn.keptAlive, withFinalize_append, storedCancel_append, h1, h2, h3,
      h4]
    refine ⟨rfl, ?_⟩
    simp only [lastCancel, Nat.succ_ne_zero, if_false]
    by_cases hk : k = 0
    · simp [hk]
    · simp only [hk, if_false]
      congr 2
      omega

theorem ProtocolHttp.EudoreConn.cancel_mem_keptAliveFinalized (h : ProtocolHttp.HttpHandler)
    (env : Env) (pctx : Context) (ctx : Context) : ∀ (k i : Nat),
    Event.cancel ctx ∈ ProtocolHttp.EudoreConn.keptAliveFinalized h env pctx i k →
      ∃ j, i ≤ j ∧ j < i + k ∧ ctx = Context.withCancel pctx j := by
  intro k
  induction k with
  | zero => intro i hmem; simp [ProtocolHttp.EudoreConn.keptAliveFinalized] at hmem
  | succ k ih =>
    intro i hmem
    rw [ProtocolHttp.EudoreConn.keptAliveFinalized, List.mem_append] at hmem
    rcases hmem with hmem | hmem
    · simp [ProtocolHttp.EudoreConn.finalizedEvents, ProtocolHttp.EudoreConn.dispatchEvents]
        at hmem
      exact ⟨i, le_refl _, by omega, hmem⟩
    · obtain ⟨j, h1, h2, h3⟩ := ih (i + 1) hmem
      exact ⟨j, by omega, by omega, h3⟩

/-- C6: in `EudoreConn` the context passed to the handler is derived from the
parent context, and the driver stores its cancel function in `resp.cancel`
and never invokes it itself.  With `finalFlush` invoking `resp.cancel` when
finalize completes, for every iteration `n` that is reached and parses: when
the handler does not hijack, the cancel function of the context of request
`n` is invoked right after `finalFlush`, before the next `Request.Reset` when
the connection is kept alive and before `Close` otherwise; when the handler
hijacks, the run ends at the handler and that cancel function is not invoked. -/
theorem cancel_invoked_after_finalize (h : ProtocolHttp.HttpHandler) (env : Env)
    (pctx : Context) (n fuel : Nat) (hlb : env.loopsBack n)
    (hok : env.resetErr n = GoError.nil) (hfuel : n < fuel) :
    (∀ ctx r i, Event.handler ctx r i ∈ (ProtocolHttp.EudoreConn h env pctx fuel).1.trace →
        ctx = Context.withCancel pctx i) ∧
    (∀ c, Event.cancel c ∉ (ProtocolHttp.EudoreConn h env pctx fuel).1.trace) ∧
    (env.ishjack n = true →
      withFinalize none (ProtocolHttp.EudoreConn h env pctx fuel).1.trace =
        Event.poolGet env.pooled ::
          (ProtocolHttp.EudoreConn.keptAliveFinalized h env pctx 0 n ++
            [Event.setReadDeadline (env.nowRead n + h.ReadTimeout),
             Event.requestReset env.pooled n,
             Event.responseReset env.pooled,
             Event.withCancel pctx (Context.withCancel pctx n),
             Event.setWriteDeadline (env.nowWrite n + h.WriteTimeout),
             Event.handler (Context.withCancel pctx n) env.pooled n]) ∧
      Event.cancel (Context.withCancel pctx n) ∉
        withFinalize none (ProtocolHttp.EudoreConn h env pctx fuel).1.trace) ∧
    (env.ishjack n = false → env.isnotkeep n = true →
      withFinalize none (ProtocolHttp.EudoreConn h env pctx fuel).1.trace =
        Event.poolGet env.pooled ::
          (ProtocolHttp.EudoreConn.keptAliveFinalized h env pctx 0 n ++
            [Event.setReadDeadline (env.nowRead n + h.ReadTimeout),
             Event.requestReset env.pooled n,
             Event.responseReset env.pooled,
             Event.withCancel pctx (Context.withCancel pctx n),
             Event.setWriteDeadline (env.nowWrite n + h.WriteTimeout),
             Event.handler (Context.withCancel pctx n) env.pooled n,
             Event.finalFlush env.pooled,
             Event.cancel (Context.withCancel pctx n),
             Event.close,
             Event.poolPut env.pooled])) ∧
    (env.ishjack n = false → env.isnotkeep n = false → n + 1 < fuel →
      ∃ rest, withFinalize none (ProtocolHttp.EudoreConn h env pctx fuel).1.trace =
        Event.poolGet env.pooled ::
          (ProtocolHttp.EudoreConn.keptAliveFinalized h env pctx 0 n ++
            ([Event.setReadDeadline (env.nowRead n + h.ReadTimeout),
              Event.requestReset env.pooled n,
              Event.responseReset env.pooled,
              Event.withCancel pctx (Context.withCancel pctx n),
              Event.setWriteDeadline (env.nowWrite n + h.WriteTimeout),
              Event.handler (Context.withCancel pctx n) env.pooled n,
              Event.finalFlush env.pooled,
              Event.cancel (Context.withCancel pctx n),
              Event.setReadDeadline (env.nowRead (n + 1) + h.ReadTimeout),
              Event.requestReset env.pooled (n + 1)] ++ rest))) := by
  have hsound := ProtocolHttp.EudoreConn_sound h env pctx fuel
  obtain ⟨m, rfl⟩ : ∃ m, fuel = n + (m + 1) := ⟨fuel - n - 1, by omega⟩
  obtain ⟨hkf, hkc⟩ := ProtocolHttp.EudoreConn.withFinalize_keptAlive h env pctx n 0
    (storedCancel none [Event.poolGet env.pooled])
  refine ⟨?_, ?_, ?_, ?_, ?_⟩
  · intro ctx r i hmem
    have := hsound.1 _ hmem
    simp only [Event.sound, Bool.and_eq_true, beq_iff_eq] at this
    exact this.1
  · intro c hmem
    have := hsound.1 _ hmem
    simp [Event.sound] at this
  · intro hhj
    have hrun : (ProtocolHttp.EudoreConn h env pctx (n + (m + 1))).1.trace =
        [Event.poolGet env.pooled] ++ (ProtocolHttp.EudoreConn.keptAlive h env pctx 0 n ++
          [Event.setReadDeadline (env.nowRead n + h.ReadTimeout),
           Event.requestReset env.pooled n,
           Event.responseReset env.pooled,
           Event.withCancel pctx (Context.withCancel pctx n),
           Event.setWriteDeadline (env.nowWrite n + h.WriteTimeout),
           Event.handler (Context.withCancel pctx n) env.pooled n]) := by
      unfold ProtocolHttp.EudoreConn
      dsimp only
      rw [ProtocolHttp.EudoreConn.loop_reach h env pctx n (m + 1) _ hlb,
        ProtocolHttp.EudoreConn.loop]
      simp [hok, hhj, Conn.emit]
    have hexp : withFinalize none (ProtocolHttp.EudoreConn h env pctx (n + (m + 1))).1.trace =
        Event.poolGet env.pooled ::
          (ProtocolHttp.EudoreConn.keptAliveFinalized h env pctx 0 n ++
            [Event.setReadDeadline (env.nowRead n + h.ReadTimeout),
             Event.requestReset env.pooled n,
             Event.responseReset env.pooled,
             Event.withCancel pctx (Context.withCancel pctx n),
             Event.setWriteDeadline (env.nowWrite n + h.WriteTimeout),
             Event.handler (Context.withCancel pctx n) env.pooled n]) := by
      rw [hrun, withFinalize_append, withFinalize_append, hkf]
      rfl
    refine ⟨hexp, ?_⟩
    rw [hexp]
    intro hmem
    rw [List.mem_cons, List.mem_append] at hmem
    rcases hmem with hmem | hmem | hmem
    · cases hmem
    · obtain ⟨j, _, hj, hctx⟩ :=
        ProtocolHttp.EudoreConn.cancel_mem_keptAliveFinalized h env pctx _ n 0 hmem
      have : n = j := by
        injection hctx
      omega
    · simp at hmem
  · intro hhj hnk
    have hrun : (ProtocolHttp.EudoreConn h env pctx (n + (m + 1))).1.trace =
        [Event.poolGet env.pooled] ++ (ProtocolHttp.EudoreConn.keptAlive h env pctx 0 n ++
          [Event.setReadDeadline (env.nowRead n + h.ReadTimeout),
           Event.requestReset env.pooled n,
           Event.responseReset env.pooled,
           Event.withCancel pctx (Context.withCancel pctx n),
           Event.setWriteDeadline (env.nowWrite n + h.WriteTimeout),
           Event.handler (Context.withCancel pctx n) env.pooled n,
           Event.finalFlush env.pooled,
           Event.close,
           Event.poolPut env.pooled]) := by
      unfold ProtocolHttp.EudoreConn
      dsimp only
      rw [ProtocolHttp.EudoreConn.loop_reach h env pctx n (m + 1) _ hlb,
        ProtocolHttp.EudoreConn.loop]
      simp [hok, hhj, hnk, Conn.emit]
    rw [hrun, withFinalize_append, withFinalize_append, hkf]
    rfl
  · intro hhj hnk hfuel2
    obtain ⟨m2, rfl⟩ : ∃ m2, m = m2 + 1 := ⟨m - 1, by omega⟩
    obtain ⟨tail, htail⟩ := ProtocolHttp.EudoreConn_trace h env pctx (n + (m2 + 1 + 1))
    have hloop : ∃ rest, (ProtocolHttp.EudoreConn.loop h env pctx (n + (m2 + 1 + 1)) 0
        { trace := [Event.poolGet env.pooled], cancel := none }).1.trace =
        [Event.poolGet env.pooled] ++ (ProtocolHttp.EudoreConn.keptAlive h env pctx 0 n ++
          ([Event.setReadDeadline (env.nowRead n + h.ReadTimeout),
            Event.requestReset env.pooled n,
            Event.responseReset env.pooled,
            Event.withCancel pctx (Context.withCancel pctx n),
            Event.setWriteDeadline (env.nowWrite n + h.WriteTimeout),
            Event.handler (Context.withCancel pctx n) env.pooled n,
            Event.finalFlush env.pooled,
            Event.setReadDeadline (env.nowRead (n + 1) + h.ReadTimeout),
            Event.requestReset env.pooled (n + 1)] ++ rest)) := by
      rw [ProtocolHttp.EudoreConn.loop_reach h env pctx n (m2 + 1 + 1) _ hlb,
        ProtocolHttp.EudoreConn.loop]
      simp only [hok, hhj, hnk, ne_eq, not_true_eq_false, if_false, Bool.false_eq_true]
      exact (ProtocolHttp.EudoreConn.loop_begin h env pctx m2 (n + 1) _).elim
        (fun rest hrest => ⟨rest, by
          rw [hrest]
          simp [Conn.emit]⟩)
    obtain ⟨rest, hrest⟩ := hloop
    refine ⟨withFinalize (some (Context.withCancel pctx n)) (rest ++ tail), ?_⟩
    have hraw : (ProtocolHttp.EudoreConn h env pctx (n + (m2 + 1 + 1))).1.trace =
        [Event.poolGet env.pooled] ++ (ProtocolHttp.EudoreConn.keptAlive h env pctx 0 n ++
          (Event.setReadDeadline (env.nowRead n + h.ReadTimeout) ::
            Event.requestReset env.pooled n :: Event.responseReset env.pooled ::
            Event.withCancel pctx (Context.withCancel pctx n) ::
            Event.setWriteDeadline (env.nowWrite n + h.WriteTimeout) ::
            Event.handler (Context.withCancel pctx n) env.pooled n ::
            Event.finalFlush env.pooled ::
            Event.setReadDeadline (env.nowRead (n + 1) + h.ReadTimeout) ::
            Event.requestReset env.pooled (n + 1) :: (rest ++ tail))) := by
      rw [htail, hrest]
      simp only [List.append_assoc, List.cons_append, List.nil_append]
    rw [hraw, withFinalize_append, withFinalize_append, hkf]
    rfl

theorem cancel_invoked_after_finalize_witness :
    (Env.ofScript 7 [GoError.nil, GoError.nil] [] [false, true]).loopsBack 1 ∧
    (Env.ofScript 7 [GoError.nil, GoError.nil] [] [false, true]).resetErr 1 = GoError.nil ∧
    withFinalize none (ProtocolHttp.EudoreConn ⟨60, 30, 90⟩
        (Env.ofScript 7 [GoError.nil, GoError.nil] [] [false, true]) (Context.base 0) 5).1.trace =
      [Event.poolGet 7,
       Event.setReadDeadline 60, Event.requestReset 7 0, Event.responseReset 7,
       Event.withCancel (Context.base 0) (Context.withCancel (Context.base 0) 0),
       Event.setWriteDeadline 530,
       Event.handler (Context.withCancel (Context.base 0) 0) 7 0,
       Event.finalFlush 7, Event.cancel (Context.withCancel (Context.base 0) 0),
       Event.setReadDeadline 1060, Event.requestReset 7 1, Event.responseReset 7,
       Event.withCancel (Context.base 0) (Context.withCancel (Context.base 0) 1),
       Event.setWriteDeadline 1530,
       Event.handler (Context.withCancel (Context.base 0) 1) 7 1,
       Event.finalFlush 7, Event.cancel (Context.withCancel (Context.base 0) 1),
       Event.close, Event.poolPut 7] :=
  have key := (cancel_invoked_after_finalize ⟨60, 30, 90⟩
    (Env.ofScript 7 [GoError.nil, GoError.nil] [] [false, true]) (Context.base 0) 1 5
    (by decide) (by decide) (by decide)).2.2.2.1 (by decide) (by decide)
  ⟨by decide, by decide, by rw [key]; decide⟩

namespace Logger

/-- C20 on the code: the writing methods assign the level and the message of
the entry they are called on and `putEntry` appends the pointer, not a copy.
After `e := l.WithField("k", "v"); e.Info("1"); e.Error("2")` the record
holds the same entry twice and `NextHandler` forwards `Error("2")` twice
and `Info("1")` never.  With one entry per statement (`l.Debug("0");
l.Info("1")`) the entries are forwarded as recorded, and `NextHandler` leaves
the record empty, so that a second `NextHandler` forwards nothing. -/
theorem NextHandler_reused_entry_forwarded_twice :
    (NewLoggerInit.WithField 1 "k" "v").2 = 0 ∧
    ((((NewLoggerInit.WithField 1 "k" "v").1.entryWrite 0 LogMethod.Info "1").entryWrite 0
        LogMethod.Error "2").NextHandler).2 =
      [⟨LogMethod.Error, some [("k", "v")], 1, "2"⟩,
       ⟨LogMethod.Error, some [("k", "v")], 1, "2"⟩] ∧
    (((NewLoggerInit.WithField 1 "k" "v").1.entryWrite 0 LogMethod.Info "1").NextHandler).2 =
      [⟨LogMethod.Info, some [("k", "v")], 1, "1"⟩] ∧
    (((NewLoggerInit.write 1 LogMethod.Debug "0").write 2 LogMethod.Info "1").NextHandler).2 =
      [⟨LogMethod.Debug, none, 1, "0"⟩, ⟨LogMethod.Info, none, 2, "1"⟩] ∧
    ((((NewLoggerInit.write 1 LogMethod.Debug "0").write 2 LogMethod.Info
        "1").NextHandler).1.NextHandler).2 = [] := by
  decide

end Logger

end Eudore
